import Mathlib

/-!
Verification of the streaming JSON-array parser of
`src/util/streaming_parser.py` (functions `parse_json_array_stream` and
`parse_json_array_stream_async`).

The Python generator is embedded shallowly:

* a text line is a `List Char` (Python line iterators deliver decoded
  text lines without newline characters);
* the mutable locals `buffer`, `brace_level`, `in_string`, `escape_next`
  become the record `ScanState` (with `braceLevel : Int`, since Python
  integers may go negative);
* the call `json.loads(obj_str, strict=False)` is an external
  collaborator, modelled by an abstract parameter
  `decode : List Char → Except E J`;
* `yield` becomes accumulation into an output list, `raise ValueError`
  becomes a `malformed`/`notArray` outcome, and the end-of-stream
  `print` warning becomes the `ParseOutcome.done (some level)` diagnostic
  (the printed message contains the final `brace_level`).

The asynchronous variant is embedded by separate definitions
(`stepCharA`, `runCharsA`, `parseAsync`, …) mirroring its own copy of the
scanning logic, so that the equivalence of the two drivers is a theorem
about two independent translations.
-/

namespace GeminiStream

/-! ## Definitions -/

/-- The whitespace characters removed by Python `str.strip()`. -/
def isPyWs (c : Char) : Bool :=
  c = ' ' || c = '\t' || c = '\n' || c = '\r' || c = '\x0b' || c = '\x0c'

/-- Python `line.strip()` on a list of characters: drop whitespace from
both ends. -/
def pyStrip (s : List Char) : List Char :=
  ((s.dropWhile isPyWs).reverse.dropWhile isPyWs).reverse

/-- The scanner state of `parse_json_array_stream`: the locals `buffer`,
`brace_level`, `in_string`, `escape_next`.  `braceLevel` is an `Int`
because the Python integer is decremented without a lower bound. -/
structure ScanState where
  buffer : List Char
  braceLevel : Int
  inString : Bool
  escapeNext : Bool
deriving DecidableEq

/-- The state at the start of phase 2 of the parser:
`buffer = []`, `brace_level = 0`, `in_string = False`, `escape_next = False`. -/
def initState : ScanState := ⟨[], 0, false, false⟩

/-- `if brace_level > 0: buffer.append(char)`. -/
def appendIf (lvl : Int) (buf : List Char) (c : Char) : List Char :=
  if 0 < lvl then buf ++ [c] else buf

/-- What one character of input can produce: nothing, one yielded object,
or a raised `ValueError` carrying the offending object text. -/
inductive StepOut (E J : Type) where
  | none : StepOut E J
  | emit : J → StepOut E J
  | fail : E → List Char → StepOut E J
deriving DecidableEq

/-- The object emitter: `obj_str = "".join(buffer)` is handed to the JSON
decoder (`json.loads(obj_str, strict=False)`), and the `finally` clause
resets `buffer` and `in_string` on the success path and on the failure
path alike.  On failure the raised error carries the underlying decode
error together with the exact offending substring. -/
def emitObj (decode : List Char → Except E J) (st : ScanState) :
    ScanState × Except (E × List Char) J :=
  (⟨[], st.braceLevel, false, st.escapeNext⟩,
    match decode st.buffer with
    | Except.ok j => Except.ok j
    | Except.error e => Except.error (e, st.buffer))

/-- The `if not in_string:` branch of the per-character loop: an opening
brace (possibly clearing the buffer at level 0) increments the level, the
character is appended while the level is positive, and a closing brace
decrements the level and invokes the emitter when the level returns to 0
with a non-empty buffer. -/
def stepStructural (decode : List Char → Except E J) (st : ScanState) (c : Char) :
    ScanState × StepOut E J :=
  let buf0 := if c = '\x7b' ∧ st.braceLevel = 0 then [] else st.buffer
  let lvl1 := if c = '\x7b' then st.braceLevel + 1 else st.braceLevel
  let buf1 := appendIf lvl1 buf0 c
  if c = '\x7d' then
    let lvl2 := lvl1 - 1
    if lvl2 = 0 ∧ buf1 ≠ [] then
      match emitObj decode ⟨buf1, lvl2, st.inString, st.escapeNext⟩ with
      | (st', Except.ok j) => (st', StepOut.emit j)
      | (st', Except.error (e, s)) => (st', StepOut.fail e s)
    else (⟨buf1, lvl2, st.inString, st.escapeNext⟩, StepOut.none)
  else (⟨buf1, lvl1, st.inString, st.escapeNext⟩, StepOut.none)

/-- One character of the scanning loop of `parse_json_array_stream`,
with the branches in the source's order: pending escape, backslash,
double quote inside an object, string interior, and otherwise the
structural branch. -/
def stepChar (decode : List Char → Except E J) (st : ScanState) (c : Char) :
    ScanState × StepOut E J :=
  if st.escapeNext then
    (⟨appendIf st.braceLevel st.buffer c, st.braceLevel, st.inString, false⟩, StepOut.none)
  else if c = '\\' then
    (⟨appendIf st.braceLevel st.buffer c, st.braceLevel, st.inString, true⟩, StepOut.none)
  else if c = '"' ∧ 0 < st.braceLevel then
    (⟨st.buffer ++ [c], st.braceLevel, !st.inString, st.escapeNext⟩, StepOut.none)
  else if st.inString then
    (⟨appendIf st.braceLevel st.buffer c, st.braceLevel, st.inString, st.escapeNext⟩, StepOut.none)
  else
    stepStructural decode st c

/-- How a character run can end: input exhausted in a final scan state, or
a `ValueError` raised from a decode failure (carrying the error and the
offending object text). -/
inductive RunStop (E : Type) where
  | done : ScanState → RunStop E
  | malformed : E → List Char → RunStop E
deriving DecidableEq

/-- The objects yielded by a character run, together with how it stopped. -/
structure RunRes (E J : Type) where
  emitted : List J
  stop : RunStop E
deriving DecidableEq

/-- The scanning loop (`for line in line_iterator: for char in line:`)
over a flat character sequence.  Objects are yielded incrementally; a
raised decode error stops the run, keeping everything yielded before. -/
def runChars (decode : List Char → Except E J) : ScanState → List Char → RunRes E J
  | st, [] => ⟨[], RunStop.done st⟩
  | st, c :: cs =>
    match stepChar decode st c with
    | (st', StepOut.none) => runChars decode st' cs
    | (st', StepOut.emit j) =>
      let r := runChars decode st' cs
      ⟨j :: r.emitted, r.stop⟩
    | (_, StepOut.fail e s) => ⟨[], RunStop.malformed e s⟩

/-- Phase 1 of `parse_json_array_stream`: scan lines, skipping any line
whose stripped form is empty and any line whose stripped form does not
start with `[`; on the first line whose stripped form starts with `[`,
return the stripped remainder after the `[` and the unread lines.
`none` models the `ValueError` raised when the iterator is exhausted
with `in_array` still false. -/
def findArrayStart : List (List Char) → Option (List Char × List (List Char))
  | [] => Option.none
  | l :: rest =>
    let s := pyStrip l
    if s = [] then findArrayStart rest
    else if s.head? = some '[' then some (s.drop 1, rest)
    else findArrayStart rest

/-- The observable result of a whole parse: the `ValueError` of phase 1
(`notArray`), a decode `ValueError` (`malformed`), or normal return,
where `done (some l)` records that the warning
`"JSON流意外结束，括号层级为 l"` was printed because the final
`brace_level` `l` was nonzero, and `done none` that no warning was
printed. -/
inductive ParseOutcome (E : Type) where
  | notArray : ParseOutcome E
  | malformed : E → List Char → ParseOutcome E
  | done : Option Int → ParseOutcome E
deriving DecidableEq

/-- Objects yielded by a whole parse, plus its outcome. -/
structure ParseRes (E J : Type) where
  emitted : List J
  outcome : ParseOutcome E
deriving DecidableEq

/-- The epilogue: a decode error propagates; otherwise the final
`brace_level` is checked and a nonzero value is reported as the printed
warning diagnostic. -/
def finish (r : RunRes E J) : ParseRes E J :=
  match r.stop with
  | RunStop.done st =>
    ⟨r.emitted, ParseOutcome.done (if st.braceLevel ≠ 0 then some st.braceLevel else none)⟩
  | RunStop.malformed e s => ⟨r.emitted, ParseOutcome.malformed e s⟩

/-- `parse_json_array_stream`: find the array start, then scan the
remainder of that line (`chain([line], line_iterator)`) followed by all
remaining lines, character by character. -/
def parse (decode : List Char → Except E J) (lines : List (List Char)) : ParseRes E J :=
  match findArrayStart lines with
  | Option.none => ⟨[], ParseOutcome.notArray⟩
  | some (rest0, rest) => finish (runChars decode initState (rest0 ++ rest.flatten))

/-! ### A model of JSON values and their compact serialization

The repository delegates object decoding to an external standard JSON
decoder; the type `Json` below and its serialization are the model used
to describe what a well-formed array of objects looks like as text.
Numbers are modelled as integers. -/

mutual
inductive Json where
  | null : Json
  | bool : Bool → Json
  | num : Int → Json
  | str : List Char → Json
  | arr : JsonArr → Json
  | obj : JsonObj → Json
inductive JsonArr where
  | nil : JsonArr
  | cons : Json → JsonArr → JsonArr
inductive JsonObj where
  | nil : JsonObj
  | cons : List Char → Json → JsonObj → JsonObj
end

/-- The decimal digit characters. -/
def digitCh : Nat → Char
  | 0 => '0'
  | 1 => '1'
  | 2 => '2'
  | 3 => '3'
  | 4 => '4'
  | 5 => '5'
  | 6 => '6'
  | 7 => '7'
  | 8 => '8'
  | _ => '9'

/-- Decimal digits of a natural number (with fuel, most significant
first). -/
def serNatAux : Nat → Nat → List Char
  | 0, _ => []
  | f + 1, n => if n < 10 then [digitCh n] else serNatAux f (n / 10) ++ [digitCh (n % 10)]

/-- Decimal serialization of a natural number. -/
def serNat (n : Nat) : List Char := serNatAux (n + 1) n

/-- Decimal serialization of an integer. -/
def serInt : Int → List Char
  | Int.ofNat n => serNat n
  | Int.negSucc n => '-' :: serNat (n + 1)

/-- JSON string escaping of one character (quotes and backslashes). -/
def escChar (c : Char) : List Char :=
  if c = '\\' then ['\\', '\\'] else if c = '"' then ['\\', '"'] else [c]

/-- JSON string escaping of a character sequence. -/
def escStr (s : List Char) : List Char := (s.map escChar).flatten

/-- Serialization of a JSON string literal. -/
def serStr (s : List Char) : List Char := '"' :: escStr s ++ ['"']

mutual
/-- Compact (whitespace-free) serialization of a JSON value. -/
def serJson : Json → List Char
  | Json.null => ['n', 'u', 'l', 'l']
  | Json.bool true => ['t', 'r', 'u', 'e']
  | Json.bool false => ['f', 'a', 'l', 's', 'e']
  | Json.num i => serInt i
  | Json.str s => serStr s
  | Json.arr xs => '[' :: serArr xs ++ [']']
  | Json.obj ms => '\x7b' :: serMembers ms ++ ['\x7d']
/-- Comma-separated serialization of array elements. -/
def serArr : JsonArr → List Char
  | JsonArr.nil => []
  | JsonArr.cons j JsonArr.nil => serJson j
  | JsonArr.cons j (JsonArr.cons k tl) => serJson j ++ ',' :: serArr (JsonArr.cons k tl)
/-- Comma-separated serialization of object members. -/
def serMembers : JsonObj → List Char
  | JsonObj.nil => []
  | JsonObj.cons k v JsonObj.nil => serStr k ++ ':' :: serJson v
  | JsonObj.cons k v (JsonObj.cons k2 v2 tl) =>
    serStr k ++ ':' :: serJson v ++ ',' :: serMembers (JsonObj.cons k2 v2 tl)
end

/-- The JSON whitespace characters (RFC 8259): space, tab, line feed,
carriage return. -/
def isJsonWs (c : Char) : Bool :=
  c = ' ' || c = '\t' || c = '\n' || c = '\r'

/-- A run of JSON whitespace. -/
def IsJsonWs (w : List Char) : Prop := ∀ c ∈ w, isJsonWs c = true

instance (w : List Char) : Decidable (IsJsonWs w) := List.decidableBAll _ w

/-- The grammatical slots of a (possibly pretty-printed) JSON text:
a bare value, an element (value with surrounding whitespace), the inner
text of an array or of an object, and an object member. -/
inductive PPKind where
  | val : Json → PPKind
  | elem : Json → PPKind
  | arrInner : JsonArr → PPKind
  | objInner : JsonObj → PPKind
  | member : List Char → Json → PPKind

/-- `PPText kind t`: `t` is a serialization of the given slot with
optional JSON whitespace at token boundaries — exactly the texts a
pretty printer (or a compact serializer) can produce.  Whitespace may
appear after `\x7b` and `[`, around `,` and `:`, around every value and
before `\x7d` and `]`; string literals and number/keyword tokens are
never split. -/
inductive PPText : PPKind → List Char → Prop where
  | null : PPText (PPKind.val Json.null) ['n', 'u', 'l', 'l']
  | btrue : PPText (PPKind.val (Json.bool true)) ['t', 'r', 'u', 'e']
  | bfalse : PPText (PPKind.val (Json.bool false)) ['f', 'a', 'l', 's', 'e']
  | num (i : Int) : PPText (PPKind.val (Json.num i)) (serInt i)
  | str (s : List Char) : PPText (PPKind.val (Json.str s)) (serStr s)
  | arr {xs : JsonArr} {t : List Char} : PPText (PPKind.arrInner xs) t →
      PPText (PPKind.val (Json.arr xs)) ('[' :: t ++ [']'])
  | obj {ms : JsonObj} {t : List Char} : PPText (PPKind.objInner ms) t →
      PPText (PPKind.val (Json.obj ms)) ('\x7b' :: t ++ ['\x7d'])
  | elem {j : Json} {t w1 w2 : List Char} : IsJsonWs w1 → PPText (PPKind.val j) t →
      IsJsonWs w2 → PPText (PPKind.elem j) (w1 ++ t ++ w2)
  | arrNil {w : List Char} : IsJsonWs w → PPText (PPKind.arrInner JsonArr.nil) w
  | arrOne {j : Json} {t : List Char} : PPText (PPKind.elem j) t →
      PPText (PPKind.arrInner (JsonArr.cons j JsonArr.nil)) t
  | arrMore {j : Json} {t : List Char} {k : Json} {tl : JsonArr} {u : List Char} :
      PPText (PPKind.elem j) t → PPText (PPKind.arrInner (JsonArr.cons k tl)) u →
      PPText (PPKind.arrInner (JsonArr.cons j (JsonArr.cons k tl))) (t ++ ',' :: u)
  | objNil {w : List Char} : IsJsonWs w → PPText (PPKind.objInner JsonObj.nil) w
  | objOne {k : List Char} {v : Json} {t : List Char} : PPText (PPKind.member k v) t →
      PPText (PPKind.objInner (JsonObj.cons k v JsonObj.nil)) t
  | objMore {k : List Char} {v : Json} {t : List Char} {k2 : List Char} {v2 : Json}
      {tl : JsonObj} {u : List Char} :
      PPText (PPKind.member k v) t → PPText (PPKind.objInner (JsonObj.cons k2 v2 tl)) u →
      PPText (PPKind.objInner (JsonObj.cons k v (JsonObj.cons k2 v2 tl))) (t ++ ',' :: u)
  | member {k : List Char} {v : Json} {t w1 w2 : List Char} :
      IsJsonWs w1 → IsJsonWs w2 → PPText (PPKind.elem v) t →
      PPText (PPKind.member k v) (w1 ++ serStr k ++ w2 ++ ':' :: t)

/-- `ArrayBody ps s` says the character sequence `s` consists of
pretty-printed texts of top-level objects — each pair in `ps` records
the object together with its exact text, interior whitespace included —
in order, interleaved with characters that are structurally inert
between objects (whitespace, commas, the closing bracket, indeed
anything except braces and backslashes).  The text following the
opening `[` of any well-formed, possibly pretty-printed JSON array of
objects has this shape: whitespace inside an element is part of its
`PPText`, whitespace and commas between elements and the closing `]`
are inert separators. -/
inductive ArrayBody : List (JsonObj × List Char) → List Char → Prop where
  | nil : ArrayBody [] []
  | sep {ps : List (JsonObj × List Char)} {s : List Char} {c : Char} :
      c ≠ '\\' → c ≠ '\x7b' → c ≠ '\x7d' → ArrayBody ps s → ArrayBody ps (c :: s)
  | elem {ps : List (JsonObj × List Char)} {s t : List Char} (ms : JsonObj) :
      PPText (PPKind.val (Json.obj ms)) t → ArrayBody ps s →
      ArrayBody ((ms, t) :: ps) (t ++ s)

/-- A table decoder standing in for the standard JSON decoder on the
two pretty-printed object texts of the spec scenario
`["[", "\x7b\"a\": 1\x7d,", "\x7b\"b\": 2\x7d", "]"]`. -/
def dTable : List Char → Except Unit Nat := fun s =>
  if s = ['\x7b', '"', 'a', '"', ':', ' ', '1', '\x7d'] then Except.ok 1
  else if s = ['\x7b', '"', 'b', '"', ':', ' ', '2', '\x7d'] then Except.ok 2
  else Except.error ()

/-- The decoded values of the scenario's two elements, keyed by their
first member name. -/
def fTable : JsonObj → Nat
  | JsonObj.cons ('a' :: _) _ _ => 1
  | _ => 2

/-! ### The asynchronous variant `parse_json_array_stream_async`

The async source duplicates the scanning logic textually (once inline in
the detection loop for the remainder of the `[`-line, once in the main
loop).  It is embedded here by its own definitions, so that behavioural
equality with the synchronous driver is a theorem relating two
independent translations. -/

/-- The async copy of the object emitter. -/
def emitObjA (decode : List Char → Except E J) (st : ScanState) :
    ScanState × Except (E × List Char) J :=
  (⟨[], st.braceLevel, false, st.escapeNext⟩,
    match decode st.buffer with
    | Except.ok j => Except.ok j
    | Except.error e => Except.error (e, st.buffer))

/-- The async copy of the structural branch. -/
def stepStructuralA (decode : List Char → Except E J) (st : ScanState) (c : Char) :
    ScanState × StepOut E J :=
  let buf0 := if c = '\x7b' ∧ st.braceLevel = 0 then [] else st.buffer
  let lvl1 := if c = '\x7b' then st.braceLevel + 1 else st.braceLevel
  let buf1 := appendIf lvl1 buf0 c
  if c = '\x7d' then
    let lvl2 := lvl1 - 1
    if lvl2 = 0 ∧ buf1 ≠ [] then
      match emitObjA decode ⟨buf1, lvl2, st.inString, st.escapeNext⟩ with
      | (st', Except.ok j) => (st', StepOut.emit j)
      | (st', Except.error (e, s)) => (st', StepOut.fail e s)
    else (⟨buf1, lvl2, st.inString, st.escapeNext⟩, StepOut.none)
  else (⟨buf1, lvl1, st.inString, st.escapeNext⟩, StepOut.none)

/-- The async copy of the per-character transition. -/
def stepCharA (decode : List Char → Except E J) (st : ScanState) (c : Char) :
    ScanState × StepOut E J :=
  if st.escapeNext then
    (⟨appendIf st.braceLevel st.buffer c, st.braceLevel, st.inString, false⟩, StepOut.none)
  else if c = '\\' then
    (⟨appendIf st.braceLevel st.buffer c, st.braceLevel, st.inString, true⟩, StepOut.none)
  else if c = '"' ∧ 0 < st.braceLevel then
    (⟨st.buffer ++ [c], st.braceLevel, !st.inString, st.escapeNext⟩, StepOut.none)
  else if st.inString then
    (⟨appendIf st.braceLevel st.buffer c, st.braceLevel, st.inString, st.escapeNext⟩, StepOut.none)
  else
    stepStructuralA decode st c

/-- The async copy of the character loop. -/
def runCharsA (decode : List Char → Except E J) : ScanState → List Char → RunRes E J
  | st, [] => ⟨[], RunStop.done st⟩
  | st, c :: cs =>
    match stepCharA decode st c with
    | (st', StepOut.none) => runCharsA decode st' cs
    | (st', StepOut.emit j) =>
      let r := runCharsA decode st' cs
      ⟨j :: r.emitted, r.stop⟩
    | (_, StepOut.fail e s) => ⟨[], RunStop.malformed e s⟩

/-- The async copy of the array-start detection (same stripping and
skipping; the inline scanning of the remainder is done by `parseAsync`). -/
def findArrayStartA : List (List Char) → Option (List Char × List (List Char))
  | [] => Option.none
  | l :: rest =>
    let s := pyStrip l
    if s = [] then findArrayStartA rest
    else if s.head? = some '[' then some (s.drop 1, rest)
    else findArrayStartA rest

/-- The async copy of the epilogue. -/
def finishA (r : RunRes E J) : ParseRes E J :=
  match r.stop with
  | RunStop.done st =>
    ⟨r.emitted, ParseOutcome.done (if st.braceLevel ≠ 0 then some st.braceLevel else none)⟩
  | RunStop.malformed e s => ⟨r.emitted, ParseOutcome.malformed e s⟩

/-- `parse_json_array_stream_async`: the detection loop additionally
processes the stripped remainder of the `[`-line inline with its own
copy of the character logic (a raised decode error there propagates at
once); the main loop then continues from the resulting scan state over
the remaining lines, and the epilogue checks the final level. -/
def parseAsync (decode : List Char → Except E J) (lines : List (List Char)) : ParseRes E J :=
  match findArrayStartA lines with
  | Option.none => ⟨[], ParseOutcome.notArray⟩
  | some (rest0, rest) =>
    match runCharsA decode initState rest0 with
    | ⟨os, RunStop.malformed e s⟩ => ⟨os, ParseOutcome.malformed e s⟩
    | ⟨os, RunStop.done st1⟩ =>
      let r := runCharsA decode st1 rest.flatten
      finishA ⟨os ++ r.emitted, r.stop⟩

/-! ### Concrete decoders used in examples, and small list facts -/

/-- The identity decoder: with it, the parser's emitted objects are the
exact character strings handed to `json.loads`. -/
def dId : List Char → Except Unit (List Char) := fun s => Except.ok s

/-- A decoder that rejects everything, standing in for `json.loads` on
undecodable text (the error payload is immaterial). -/
def eFail : List Char → Except Unit (List Char) := fun _ => Except.error ()

/-! ### The buffer-shape invariant behind the object emitter -/

/-- The inductive invariant of the scanner: at nonpositive level the
buffer is empty, at positive level the buffer starts with the opening
brace that opened the current top-level object, and string context only
occurs inside an object. -/
def ShapeInv (st : ScanState) : Prop :=
  (st.braceLevel ≤ 0 → st.buffer = []) ∧
  (0 < st.braceLevel → st.buffer.head? = some '\x7b') ∧
  (st.inString = true → 0 < st.braceLevel)

/-! ## Theorems -/

/-! ### Basic lemmas about the character runner -/

theorem runChars_cons (decode : List Char → Except E J) (st : ScanState) (c : Char)
    (cs : List Char) :
    runChars decode st (c :: cs) =
      match stepChar decode st c with
      | (st', StepOut.none) => runChars decode st' cs
      | (st', StepOut.emit j) =>
        ⟨j :: (runChars decode st' cs).emitted, (runChars decode st' cs).stop⟩
      | (_, StepOut.fail e s) => ⟨[], RunStop.malformed e s⟩ := by
  rw [runChars]

/-- Compositionality of the scan: if a prefix finishes normally in state
`st1`, the run over the whole input is the run over the prefix followed by
the run over the suffix from `st1`.  Everything yielded on the prefix is
yielded on the whole input, in the same order and before the rest. -/
theorem runChars_append_done (decode : List Char → Except E J) (a : List Char) :
    ∀ (b : List Char) (st st1 : ScanState) (os : List J),
    runChars decode st a = ⟨os, RunStop.done st1⟩ →
    runChars decode st (a ++ b) =
      ⟨os ++ (runChars decode st1 b).emitted, (runChars decode st1 b).stop⟩ := by
  induction a with
  | nil =>
    intro b st st1 os h
    rw [runChars] at h
    cases h
    simp [runChars]
  | cons c cs ih =>
    intro b st st1 os h
    rw [runChars_cons] at h
    rw [List.cons_append, runChars_cons]
    rcases hstep : stepChar decode st c with ⟨st', out⟩
    rw [hstep] at h
    cases out with
    | none =>
      dsimp only at h ⊢
      exact ih b st' st1 os h
    | emit j =>
      dsimp only at h ⊢
      rcases hr : runChars decode st' cs with ⟨os', stop'⟩
      rw [hr] at h
      cases h
      rw [ih b st' st1 os' hr]
      simp
    | fail e s =>
      dsimp only at h
      simp at h

/-- A decode failure on a prefix makes the whole run fail the same way,
with the same objects already yielded and nothing further produced. -/
theorem runChars_append_fail (decode : List Char → Except E J) (a : List Char) :
    ∀ (b : List Char) (st : ScanState) (os : List J) (e : E) (s : List Char),
    runChars decode st a = ⟨os, RunStop.malformed e s⟩ →
    runChars decode st (a ++ b) = ⟨os, RunStop.malformed e s⟩ := by
  induction a with
  | nil =>
    intro b st os e s h
    rw [runChars] at h
    cases h
  | cons c cs ih =>
    intro b st os e s h
    rw [runChars_cons] at h
    rw [List.cons_append, runChars_cons]
    rcases hstep : stepChar decode st c with ⟨st', out⟩
    rw [hstep] at h
    cases out with
    | none =>
      dsimp only at h ⊢
      exact ih b st' os e s h
    | emit j =>
      dsimp only at h ⊢
      rcases hr : runChars decode st' cs with ⟨os', stop'⟩
      rw [hr] at h
      cases h
      rw [ih b st' os' e s hr]
    | fail e' s' =>
      dsimp only at h ⊢
      cases h
      rfl

/-! ### How the scanner treats each class of character -/

theorem stepChar_escape (decode : List Char → Except E J) (buf : List Char) (lvl : Int)
    (inS : Bool) (c : Char) :
    stepChar decode ⟨buf, lvl, inS, true⟩ c =
      (⟨appendIf lvl buf c, lvl, inS, false⟩, StepOut.none) := by
  simp [stepChar]

theorem stepChar_backslash (decode : List Char → Except E J) (buf : List Char) (lvl : Int)
    (inS : Bool) :
    stepChar decode ⟨buf, lvl, inS, false⟩ '\\' =
      (⟨appendIf lvl buf '\\', lvl, inS, true⟩, StepOut.none) := by
  simp [stepChar]

theorem stepChar_quote (decode : List Char → Except E J) (buf : List Char) (lvl : Int)
    (inS : Bool) (h : 0 < lvl) :
    stepChar decode ⟨buf, lvl, inS, false⟩ '"' =
      (⟨buf ++ ['"'], lvl, !inS, false⟩, StepOut.none) := by
  simp [stepChar, h]

theorem stepChar_inString (decode : List Char → Except E J) (buf : List Char) (lvl : Int)
    (c : Char) (hb : c ≠ '\\') (hq : c ≠ '"') :
    stepChar decode ⟨buf, lvl, true, false⟩ c =
      (⟨appendIf lvl buf c, lvl, true, false⟩, StepOut.none) := by
  simp [stepChar, hb, hq]

theorem stepChar_inert_pos (decode : List Char → Except E J) (buf : List Char) (lvl : Int)
    (c : Char) (hb : c ≠ '\\') (hq : c ≠ '"') (ho : c ≠ '\x7b') (hc : c ≠ '\x7d')
    (hl : 0 < lvl) :
    stepChar decode ⟨buf, lvl, false, false⟩ c =
      (⟨buf ++ [c], lvl, false, false⟩, StepOut.none) := by
  simp [stepChar, stepStructural, appendIf, hb, hq, ho, hc, hl]

/-- Between objects (level 0, outside any string), every character other
than a brace or a backslash is silently discarded. -/
theorem stepChar_inert0 (decode : List Char → Except E J) (c : Char)
    (hb : c ≠ '\\') (ho : c ≠ '\x7b') (hc : c ≠ '\x7d') :
    stepChar decode initState c = (initState, StepOut.none) := by
  simp [stepChar, stepStructural, appendIf, initState, hb, ho, hc]

/-- An opening brace at level 0 clears the buffer and starts a new
top-level object. -/
theorem stepChar_open0 (decode : List Char → Except E J) (buf : List Char) :
    stepChar decode ⟨buf, 0, false, false⟩ '\x7b' =
      (⟨['\x7b'], 1, false, false⟩, StepOut.none) := by
  simp [stepChar, stepStructural, appendIf]

/-- An opening brace at positive level just deepens the nesting. -/
theorem stepChar_open_pos (decode : List Char → Except E J) (buf : List Char) (lvl : Int)
    (hl : 0 < lvl) :
    stepChar decode ⟨buf, lvl, false, false⟩ '\x7b' =
      (⟨buf ++ ['\x7b'], lvl + 1, false, false⟩, StepOut.none) := by
  have hl' : lvl ≠ 0 := by omega
  have hl1 : (0 : Int) < lvl + 1 := by omega
  simp [stepChar, stepStructural, appendIf, hl', hl1]

/-- A closing brace at level above 1 just closes a nested brace. -/
theorem stepChar_close_pos (decode : List Char → Except E J) (buf : List Char) (lvl : Int)
    (hl : 1 < lvl) :
    stepChar decode ⟨buf, lvl, false, false⟩ '\x7d' =
      (⟨buf ++ ['\x7d'], lvl - 1, false, false⟩, StepOut.none) := by
  have h0 : (0 : Int) < lvl := by omega
  have h1 : lvl - 1 ≠ 0 := by omega
  simp [stepChar, stepStructural, appendIf, h0, h1]

/-- A closing brace at level 1 completes a top-level object and invokes
the emitter on the buffer (which contains at least this brace). -/
theorem stepChar_close1 (decode : List Char → Except E J) (buf : List Char) :
    stepChar decode ⟨buf, 1, false, false⟩ '\x7d' =
      match decode (buf ++ ['\x7d']) with
      | Except.ok j => (initState, StepOut.emit j)
      | Except.error e => (initState, StepOut.fail e (buf ++ ['\x7d'])) := by
  cases hd : decode (buf ++ ['\x7d']) with
  | ok j => simp [stepChar, stepStructural, appendIf, emitObj, initState, hd]
  | error e => simp [stepChar, stepStructural, appendIf, emitObj, initState, hd]

/-! ### Runs over inert character sequences -/

/-- Inside an object but outside any string, a run of characters free of
braces, quotes and backslashes is appended to the buffer verbatim and
changes nothing else. -/
theorem runChars_inert_pos (decode : List Char → Except E J) :
    ∀ (cs buf : List Char) (lvl : Int), 0 < lvl →
    (∀ c ∈ cs, c ≠ '\\' ∧ c ≠ '"' ∧ c ≠ '\x7b' ∧ c ≠ '\x7d') →
    runChars decode ⟨buf, lvl, false, false⟩ cs =
      ⟨[], RunStop.done ⟨buf ++ cs, lvl, false, false⟩⟩ := by
  intro cs
  induction cs with
  | nil => intro buf lvl _ _; simp [runChars]
  | cons c cs ih =>
    intro buf lvl hl hcs
    obtain ⟨hb, hq, ho, hc⟩ := hcs c (List.mem_cons_self c cs)
    rw [runChars_cons, stepChar_inert_pos decode buf lvl c hb hq ho hc hl]
    dsimp only
    rw [ih (buf ++ [c]) lvl hl (fun d hd => hcs d (List.mem_cons_of_mem c hd))]
    simp

/-- At level 0 outside an object, a run of characters free of braces and
backslashes is skipped entirely. -/
theorem runChars_inert0 (decode : List Char → Except E J) :
    ∀ (cs : List Char),
    (∀ c ∈ cs, c ≠ '\\' ∧ c ≠ '\x7b' ∧ c ≠ '\x7d') →
    runChars decode initState cs = ⟨[], RunStop.done initState⟩ := by
  intro cs
  induction cs with
  | nil => simp [runChars]
  | cons c cs ih =>
    intro hcs
    obtain ⟨hb, ho, hc⟩ := hcs c (List.mem_cons_self c cs)
    rw [runChars_cons, stepChar_inert0 decode c hb ho hc]
    dsimp only
    exact ih (fun d hd => hcs d (List.mem_cons_of_mem c hd))

/-! ### Small composition helpers -/

theorem runChars_cons_none (decode : List Char → Except E J) {st st' : ScanState}
    (c : Char) (cs : List Char) (h : stepChar decode st c = (st', StepOut.none)) :
    runChars decode st (c :: cs) = runChars decode st' cs := by
  rw [runChars_cons, h]

theorem runChars_seq (decode : List Char → Except E J) {a b : List Char}
    {st st1 st2 : ScanState}
    (ha : runChars decode st a = ⟨[], RunStop.done st1⟩)
    (hb : runChars decode st1 b = ⟨[], RunStop.done st2⟩) :
    runChars decode st (a ++ b) = ⟨[], RunStop.done st2⟩ := by
  rw [runChars_append_done decode a b st st1 [] ha, hb]
  simp

/-! ### The serialized characters that matter to the scanner -/

theorem digitCh_mem (n : Nat) :
    digitCh n ∈ ['0', '1', '2', '3', '4', '5', '6', '7', '8', '9'] := by
  unfold digitCh
  split <;> decide

theorem serNatAux_mem (f : Nat) :
    ∀ (n : Nat), ∀ c ∈ serNatAux f n, c ∈ ['0', '1', '2', '3', '4', '5', '6', '7', '8', '9'] := by
  induction f with
  | zero => intro n c hc; simp [serNatAux] at hc
  | succ f ih =>
    intro n c hc
    rw [serNatAux] at hc
    by_cases h : n < 10
    · rw [if_pos h] at hc
      rcases List.mem_singleton.mp hc with rfl
      exact digitCh_mem n
    · rw [if_neg h] at hc
      rcases List.mem_append.mp hc with h1 | h1
      · exact ih (n / 10) c h1
      · rcases List.mem_singleton.mp h1 with rfl
        exact digitCh_mem (n % 10)

theorem serInt_mem (i : Int) :
    ∀ c ∈ serInt i, c ∈ ['-', '0', '1', '2', '3', '4', '5', '6', '7', '8', '9'] := by
  intro c hc
  cases i with
  | ofNat n =>
    have := serNatAux_mem (n + 1) n c hc
    simp at this
    simp [this]
  | negSucc n =>
    rw [serInt] at hc
    rcases List.mem_cons.mp hc with rfl | h1
    · simp
    · have := serNatAux_mem (n + 1 + 1) (n + 1) c h1
      simp at this
      simp [this]

theorem serInt_inert (i : Int) :
    ∀ c ∈ serInt i, c ≠ '\\' ∧ c ≠ '"' ∧ c ≠ '\x7b' ∧ c ≠ '\x7d' := by
  intro c hc
  have h := serInt_mem i c hc
  fin_cases h <;> decide

/-! ### Scanning a serialized string literal -/

theorem appendIf_pos {lvl : Int} (buf : List Char) (c : Char) (h : 0 < lvl) :
    appendIf lvl buf c = buf ++ [c] := if_pos h

/-- Inside a string literal, the escaped body is copied to the buffer
verbatim; escaped quotes do not end the string and braces are not
structural. -/
theorem runChars_escBody (decode : List Char → Except E J) :
    ∀ (s buf : List Char) (lvl : Int), 0 < lvl →
    runChars decode ⟨buf, lvl, true, false⟩ (escStr s) =
      ⟨[], RunStop.done ⟨buf ++ escStr s, lvl, true, false⟩⟩ := by
  intro s
  induction s with
  | nil =>
    intro buf lvl hl
    simp [escStr, runChars]
  | cons c s ih =>
    intro buf lvl hl
    have hesc : escStr (c :: s) = escChar c ++ escStr s := by
      simp [escStr]
    rw [hesc]
    by_cases hb : c = '\\'
    · have he : escChar c = ['\\', '\\'] := by simp [escChar, hb]
      rw [he]
      have h1 : stepChar decode ⟨buf, lvl, true, false⟩ '\\' =
          (⟨buf ++ ['\\'], lvl, true, true⟩, StepOut.none) := by
        rw [stepChar_backslash, appendIf_pos buf '\\' hl]
      have h2 : stepChar decode ⟨buf ++ ['\\'], lvl, true, true⟩ '\\' =
          (⟨buf ++ ['\\', '\\'], lvl, true, false⟩, StepOut.none) := by
        rw [stepChar_escape, appendIf_pos _ '\\' hl]
        simp
      show runChars decode ⟨buf, lvl, true, false⟩ ('\\' :: '\\' :: escStr s) = _
      rw [runChars_cons_none decode '\\' _ h1, runChars_cons_none decode '\\' _ h2,
        ih (buf ++ ['\\', '\\']) lvl hl]
      simp
    · by_cases hq : c = '"'
      · have he : escChar c = ['\\', '"'] := by simp [escChar, hb, hq]
        rw [he]
        have h1 : stepChar decode ⟨buf, lvl, true, false⟩ '\\' =
            (⟨buf ++ ['\\'], lvl, true, true⟩, StepOut.none) := by
          rw [stepChar_backslash, appendIf_pos buf '\\' hl]
        have h2 : stepChar decode ⟨buf ++ ['\\'], lvl, true, true⟩ '"' =
            (⟨buf ++ ['\\', '"'], lvl, true, false⟩, StepOut.none) := by
          rw [stepChar_escape, appendIf_pos _ '"' hl]
          simp
        show runChars decode ⟨buf, lvl, true, false⟩ ('\\' :: '"' :: escStr s) = _
        rw [runChars_cons_none decode '\\' _ h1, runChars_cons_none decode '"' _ h2,
          ih (buf ++ ['\\', '"']) lvl hl]
        simp
      · have he : escChar c = [c] := by simp [escChar, hb, hq]
        rw [he]
        have h1 : stepChar decode ⟨buf, lvl, true, false⟩ c =
            (⟨buf ++ [c], lvl, true, false⟩, StepOut.none) := by
          rw [stepChar_inString decode buf lvl c hb hq, appendIf_pos buf c hl]
        show runChars decode ⟨buf, lvl, true, false⟩ (c :: escStr s) = _
        rw [runChars_cons_none decode c _ h1, ih (buf ++ [c]) lvl hl]
        simp

/-- Scanning a whole serialized string literal from inside an object:
the opening quote enters string context, the body is copied, the closing
quote leaves string context; the nesting level never changes. -/
theorem runChars_serStr (decode : List Char → Except E J) (s buf : List Char) (lvl : Int)
    (hl : 0 < lvl) :
    runChars decode ⟨buf, lvl, false, false⟩ (serStr s) =
      ⟨[], RunStop.done ⟨buf ++ serStr s, lvl, false, false⟩⟩ := by
  have h1 : stepChar decode ⟨buf, lvl, false, false⟩ '"' =
      (⟨buf ++ ['"'], lvl, true, false⟩, StepOut.none) := by
    rw [stepChar_quote decode buf lvl false hl]
    simp
  have h3 : stepChar decode ⟨buf ++ ['"'] ++ escStr s, lvl, true, false⟩ '"' =
      (⟨buf ++ ['"'] ++ escStr s ++ ['"'], lvl, false, false⟩, StepOut.none) := by
    rw [stepChar_quote decode _ lvl true hl]
    simp
  have h4 : runChars decode ⟨buf ++ ['"'], lvl, true, false⟩ (escStr s ++ ['"']) =
      ⟨[], RunStop.done ⟨buf ++ ['"'] ++ escStr s ++ ['"'], lvl, false, false⟩⟩ := by
    apply runChars_seq decode (runChars_escBody decode s (buf ++ ['"']) lvl hl)
    rw [runChars_cons_none decode '"' [] h3, runChars]
  rw [serStr, List.cons_append, runChars_cons_none decode '"' _ h1, h4]
  simp

/-! ### Scanning any serialized JSON value nested inside an object -/

mutual
/-- At positive nesting level, outside any string, a serialized JSON
value is copied to the buffer verbatim: no object is emitted, and the
level, string flag and escape flag return to their starting values. -/
theorem runChars_serJson (decode : List Char → Except E J) (j : Json) :
    ∀ (buf : List Char) (lvl : Int), 0 < lvl →
    runChars decode ⟨buf, lvl, false, false⟩ (serJson j) =
      ⟨[], RunStop.done ⟨buf ++ serJson j, lvl, false, false⟩⟩ := by
  cases j with
  | null =>
    intro buf lvl hl
    exact runChars_inert_pos decode _ buf lvl hl (by decide)
  | bool b =>
    intro buf lvl hl
    cases b
    · exact runChars_inert_pos decode _ buf lvl hl (by decide)
    · exact runChars_inert_pos decode _ buf lvl hl (by decide)
  | num i =>
    intro buf lvl hl
    exact runChars_inert_pos decode _ buf lvl hl (serInt_inert i)
  | str s =>
    intro buf lvl hl
    exact runChars_serStr decode s buf lvl hl
  | arr xs =>
    intro buf lvl hl
    have h1 : stepChar decode ⟨buf, lvl, false, false⟩ '[' =
        (⟨buf ++ ['['], lvl, false, false⟩, StepOut.none) :=
      stepChar_inert_pos decode buf lvl '[' (by decide) (by decide) (by decide) (by decide) hl
    have h3 : stepChar decode ⟨buf ++ ['['] ++ serArr xs, lvl, false, false⟩ ']' =
        (⟨buf ++ ['['] ++ serArr xs ++ [']'], lvl, false, false⟩, StepOut.none) :=
      stepChar_inert_pos decode _ lvl ']' (by decide) (by decide) (by decide) (by decide) hl
    have h4 : runChars decode ⟨buf ++ ['['], lvl, false, false⟩ (serArr xs ++ [']']) =
        ⟨[], RunStop.done ⟨buf ++ ['['] ++ serArr xs ++ [']'], lvl, false, false⟩⟩ := by
      apply runChars_seq decode (runChars_serArr decode xs (buf ++ ['[']) lvl hl)
      rw [runChars_cons_none decode ']' [] h3, runChars]
    rw [serJson, List.cons_append, runChars_cons_none decode '[' _ h1, h4]
    simp
  | obj ms =>
    intro buf lvl hl
    have h1 : stepChar decode ⟨buf, lvl, false, false⟩ '\x7b' =
        (⟨buf ++ ['\x7b'], lvl + 1, false, false⟩, StepOut.none) :=
      stepChar_open_pos decode buf lvl hl
    have h3 : stepChar decode ⟨buf ++ ['\x7b'] ++ serMembers ms, lvl + 1, false, false⟩ '\x7d' =
        (⟨buf ++ ['\x7b'] ++ serMembers ms ++ ['\x7d'], lvl, false, false⟩, StepOut.none) := by
      rw [stepChar_close_pos decode _ (lvl + 1) (by omega)]
      simp
    have h4 : runChars decode ⟨buf ++ ['\x7b'], lvl + 1, false, false⟩
        (serMembers ms ++ ['\x7d']) =
        ⟨[], RunStop.done ⟨buf ++ ['\x7b'] ++ serMembers ms ++ ['\x7d'], lvl, false, false⟩⟩ := by
      apply runChars_seq decode
        (runChars_serMembers decode ms (buf ++ ['\x7b']) (lvl + 1) (by omega))
      rw [runChars_cons_none decode '\x7d' [] h3, runChars]
    rw [serJson, List.cons_append, runChars_cons_none decode '\x7b' _ h1, h4]
    simp

/-- As `runChars_serJson`, for a comma-separated sequence of array
elements. -/
theorem runChars_serArr (decode : List Char → Except E J) (xs : JsonArr) :
    ∀ (buf : List Char) (lvl : Int), 0 < lvl →
    runChars decode ⟨buf, lvl, false, false⟩ (serArr xs) =
      ⟨[], RunStop.done ⟨buf ++ serArr xs, lvl, false, false⟩⟩ := by
  cases xs with
  | nil =>
    intro buf lvl hl
    simp [serArr, runChars]
  | cons j tl =>
    cases tl with
    | nil =>
      intro buf lvl hl
      rw [serArr]
      exact runChars_serJson decode j buf lvl hl
    | cons k tl' =>
      intro buf lvl hl
      have hcomma : stepChar decode ⟨buf ++ serJson j, lvl, false, false⟩ ',' =
          (⟨buf ++ serJson j ++ [','], lvl, false, false⟩, StepOut.none) :=
        stepChar_inert_pos decode _ lvl ',' (by decide) (by decide) (by decide) (by decide) hl
      have h4 : runChars decode ⟨buf ++ serJson j, lvl, false, false⟩
          (',' :: serArr (JsonArr.cons k tl')) =
          ⟨[], RunStop.done
            ⟨buf ++ serJson j ++ [','] ++ serArr (JsonArr.cons k tl'), lvl, false, false⟩⟩ := by
        rw [runChars_cons_none decode ',' _ hcomma]
        exact runChars_serArr decode (JsonArr.cons k tl') (buf ++ serJson j ++ [',']) lvl hl
      rw [serArr]
      rw [runChars_seq decode (runChars_serJson decode j buf lvl hl) h4]
      simp

/-- As `runChars_serJson`, for a comma-separated sequence of object
members. -/
theorem runChars_serMembers (decode : List Char → Except E J) (ms : JsonObj) :
    ∀ (buf : List Char) (lvl : Int), 0 < lvl →
    runChars decode ⟨buf, lvl, false, false⟩ (serMembers ms) =
      ⟨[], RunStop.done ⟨buf ++ serMembers ms, lvl, false, false⟩⟩ := by
  cases ms with
  | nil =>
    intro buf lvl hl
    simp [serMembers, runChars]
  | cons k v tl =>
    cases tl with
    | nil =>
      intro buf lvl hl
      have hcolon : stepChar decode ⟨buf ++ serStr k, lvl, false, false⟩ ':' =
          (⟨buf ++ serStr k ++ [':'], lvl, false, false⟩, StepOut.none) :=
        stepChar_inert_pos decode _ lvl ':' (by decide) (by decide) (by decide) (by decide) hl
      have h4 : runChars decode ⟨buf ++ serStr k, lvl, false, false⟩ (':' :: serJson v) =
          ⟨[], RunStop.done ⟨buf ++ serStr k ++ [':'] ++ serJson v, lvl, false, false⟩⟩ := by
        rw [runChars_cons_none decode ':' _ hcolon]
        exact runChars_serJson decode v (buf ++ serStr k ++ [':']) lvl hl
      rw [serMembers]
      rw [runChars_seq decode (runChars_serStr decode k buf lvl hl) h4]
      simp
    | cons k2 v2 tl' =>
      intro buf lvl hl
      have hcolon : stepChar decode ⟨buf ++ serStr k, lvl, false, false⟩ ':' =
          (⟨buf ++ serStr k ++ [':'], lvl, false, false⟩, StepOut.none) :=
        stepChar_inert_pos decode _ lvl ':' (by decide) (by decide) (by decide) (by decide) hl
      have hcomma : stepChar decode
          ⟨buf ++ serStr k ++ [':'] ++ serJson v, lvl, false, false⟩ ',' =
          (⟨buf ++ serStr k ++ [':'] ++ serJson v ++ [','], lvl, false, false⟩, StepOut.none) :=
        stepChar_inert_pos decode _ lvl ',' (by decide) (by decide) (by decide) (by decide) hl
      have h5 : runChars decode ⟨buf ++ serStr k ++ [':'] ++ serJson v, lvl, false, false⟩
          (',' :: serMembers (JsonObj.cons k2 v2 tl')) =
          ⟨[], RunStop.done ⟨buf ++ serStr k ++ [':'] ++ serJson v ++ [','] ++
            serMembers (JsonObj.cons k2 v2 tl'), lvl, false, false⟩⟩ := by
        rw [runChars_cons_none decode ',' _ hcomma]
        exact runChars_serMembers decode (JsonObj.cons k2 v2 tl')
          (buf ++ serStr k ++ [':'] ++ serJson v ++ [',']) lvl hl
      have hkv : runChars decode ⟨buf, lvl, false, false⟩ (serStr k ++ ':' :: serJson v) =
          ⟨[], RunStop.done ⟨buf ++ serStr k ++ [':'] ++ serJson v, lvl, false, false⟩⟩ := by
        apply runChars_seq decode (runChars_serStr decode k buf lvl hl)
        rw [runChars_cons_none decode ':' _ hcolon]
        exact runChars_serJson decode v (buf ++ serStr k ++ [':']) lvl hl
      rw [serMembers]
      rw [runChars_seq decode hkv h5]
      simp
end

/-! ### Scanning a whole top-level object, and well-formed array bodies -/

/-- Scanning a serialized top-level object from the between-objects
state: the exact serialization is handed to the decoder; one object is
yielded on success and the scanner returns to `initState`; on decode
failure the run fails carrying the exact text. -/
theorem runChars_topObj (decode : List Char → Except E J) (ms : JsonObj) :
    runChars decode initState (serJson (Json.obj ms)) =
      match decode (serJson (Json.obj ms)) with
      | Except.ok j => ⟨[j], RunStop.done initState⟩
      | Except.error e => ⟨[], RunStop.malformed e (serJson (Json.obj ms))⟩ := by
  have harg : ['\x7b'] ++ serMembers ms ++ ['\x7d'] = serJson (Json.obj ms) := by
    rw [serJson]
    simp
  have hopen : stepChar decode initState '\x7b' =
      (⟨['\x7b'], 1, false, false⟩, StepOut.none) := stepChar_open0 decode []
  have hclose := stepChar_close1 decode (['\x7b'] ++ serMembers ms)
  rw [harg] at hclose
  conv_lhs => rw [serJson, List.cons_append]
  rw [runChars_cons_none decode '\x7b' _ hopen]
  rw [runChars_append_done decode (serMembers ms) ['\x7d'] _ _ []
    (runChars_serMembers decode ms ['\x7b'] 1 one_pos)]
  rw [runChars_cons, hclose]
  cases hd : decode (serJson (Json.obj ms)) with
  | ok j => simp [runChars]
  | error e => simp

/-- JSON whitespace is structurally inert for the scanner. -/
theorem isJsonWs_inert {c : Char} (h : isJsonWs c = true) :
    c ≠ '\\' ∧ c ≠ '"' ∧ c ≠ '\x7b' ∧ c ≠ '\x7d' := by
  simp [isJsonWs] at h
  rcases h with ((rfl | rfl) | rfl) | rfl <;> decide

/-- Inside an object, a whitespace run is copied to the buffer verbatim. -/
theorem runChars_ws (decode : List Char → Except E J) {w : List Char} (hw : IsJsonWs w)
    (buf : List Char) (lvl : Int) (hl : 0 < lvl) :
    runChars decode ⟨buf, lvl, false, false⟩ w =
      ⟨[], RunStop.done ⟨buf ++ w, lvl, false, false⟩⟩ :=
  runChars_inert_pos decode w buf lvl hl (fun c hc => isJsonWs_inert (hw c hc))

/-- At positive nesting level, outside any string, any pretty-printed
JSON text — interior whitespace included — is copied to the buffer
verbatim: no object is emitted, and the level, string flag and escape
flag return to their starting values. -/
theorem runChars_ppText (decode : List Char → Except E J) :
    ∀ {kind : PPKind} {t : List Char}, PPText kind t →
    ∀ (buf : List Char) (lvl : Int), 0 < lvl →
    runChars decode ⟨buf, lvl, false, false⟩ t =
      ⟨[], RunStop.done ⟨buf ++ t, lvl, false, false⟩⟩ := by
  intro kind t h
  induction h with
  | null =>
    intro buf lvl hl
    exact runChars_inert_pos decode _ buf lvl hl (by decide)
  | btrue =>
    intro buf lvl hl
    exact runChars_inert_pos decode _ buf lvl hl (by decide)
  | bfalse =>
    intro buf lvl hl
    exact runChars_inert_pos decode _ buf lvl hl (by decide)
  | num i =>
    intro buf lvl hl
    exact runChars_inert_pos decode _ buf lvl hl (serInt_inert i)
  | str s =>
    intro buf lvl hl
    exact runChars_serStr decode s buf lvl hl
  | @arr xs u _ ih =>
    intro buf lvl hl
    have h1 : stepChar decode ⟨buf, lvl, false, false⟩ '[' =
        (⟨buf ++ ['['], lvl, false, false⟩, StepOut.none) :=
      stepChar_inert_pos decode buf lvl '[' (by decide) (by decide) (by decide) (by decide) hl
    have h3 : stepChar decode ⟨buf ++ ['['] ++ u, lvl, false, false⟩ ']' =
        (⟨buf ++ ['['] ++ u ++ [']'], lvl, false, false⟩, StepOut.none) :=
      stepChar_inert_pos decode _ lvl ']' (by decide) (by decide) (by decide) (by decide) hl
    have h4 : runChars decode ⟨buf ++ ['['], lvl, false, false⟩ (u ++ [']']) =
        ⟨[], RunStop.done ⟨buf ++ ['['] ++ u ++ [']'], lvl, false, false⟩⟩ := by
      apply runChars_seq decode (ih (buf ++ ['[']) lvl hl)
      rw [runChars_cons_none decode ']' [] h3, runChars]
    rw [List.cons_append, runChars_cons_none decode '[' _ h1, h4]
    simp
  | @obj ms u _ ih =>
    intro buf lvl hl
    have h1 : stepChar decode ⟨buf, lvl, false, false⟩ '\x7b' =
        (⟨buf ++ ['\x7b'], lvl + 1, false, false⟩, StepOut.none) :=
      stepChar_open_pos decode buf lvl hl
    have h3 : stepChar decode ⟨buf ++ ['\x7b'] ++ u, lvl + 1, false, false⟩ '\x7d' =
        (⟨buf ++ ['\x7b'] ++ u ++ ['\x7d'], lvl, false, false⟩, StepOut.none) := by
      rw [stepChar_close_pos decode _ (lvl + 1) (by omega)]
      simp
    have h4 : runChars decode ⟨buf ++ ['\x7b'], lvl + 1, false, false⟩ (u ++ ['\x7d']) =
        ⟨[], RunStop.done ⟨buf ++ ['\x7b'] ++ u ++ ['\x7d'], lvl, false, false⟩⟩ := by
      apply runChars_seq decode (ih (buf ++ ['\x7b']) (lvl + 1) (by omega))
      rw [runChars_cons_none decode '\x7d' [] h3, runChars]
    rw [List.cons_append, runChars_cons_none decode '\x7b' _ h1, h4]
    simp
  | @elem j u w1 w2 hw1 _ hw2 ih =>
    intro buf lvl hl
    have ha : runChars decode ⟨buf, lvl, false, false⟩ (w1 ++ u) =
        ⟨[], RunStop.done ⟨buf ++ w1 ++ u, lvl, false, false⟩⟩ := by
      apply runChars_seq decode (runChars_ws decode hw1 buf lvl hl)
      exact ih (buf ++ w1) lvl hl
    rw [runChars_seq decode ha (runChars_ws decode hw2 (buf ++ w1 ++ u) lvl hl)]
    simp
  | arrNil hw =>
    intro buf lvl hl
    exact runChars_ws decode hw buf lvl hl
  | arrOne _ ih =>
    intro buf lvl hl
    exact ih buf lvl hl
  | @arrMore j u k tl v _ _ ih1 ih2 =>
    intro buf lvl hl
    have hcomma : stepChar decode ⟨buf ++ u, lvl, false, false⟩ ',' =
        (⟨buf ++ u ++ [','], lvl, false, false⟩, StepOut.none) :=
      stepChar_inert_pos decode _ lvl ',' (by decide) (by decide) (by decide) (by decide) hl
    have hb : runChars decode ⟨buf ++ u, lvl, false, false⟩ (',' :: v) =
        ⟨[], RunStop.done ⟨buf ++ u ++ [','] ++ v, lvl, false, false⟩⟩ := by
      rw [runChars_cons_none decode ',' _ hcomma]
      exact ih2 (buf ++ u ++ [',']) lvl hl
    rw [runChars_seq decode (ih1 buf lvl hl) hb]
    simp
  | objNil hw =>
    intro buf lvl hl
    exact runChars_ws decode hw buf lvl hl
  | objOne _ ih =>
    intro buf lvl hl
    exact ih buf lvl hl
  | @objMore k v u k2 v2 tl w _ _ ih1 ih2 =>
    intro buf lvl hl
    have hcomma : stepChar decode ⟨buf ++ u, lvl, false, false⟩ ',' =
        (⟨buf ++ u ++ [','], lvl, false, false⟩, StepOut.none) :=
      stepChar_inert_pos decode _ lvl ',' (by decide) (by decide) (by decide) (by decide) hl
    have hb : runChars decode ⟨buf ++ u, lvl, false, false⟩ (',' :: w) =
        ⟨[], RunStop.done ⟨buf ++ u ++ [','] ++ w, lvl, false, false⟩⟩ := by
      rw [runChars_cons_none decode ',' _ hcomma]
      exact ih2 (buf ++ u ++ [',']) lvl hl
    rw [runChars_seq decode (ih1 buf lvl hl) hb]
    simp
  | @member k v u w1 w2 hw1 hw2 _ ih =>
    intro buf lvl hl
    have h1 : runChars decode ⟨buf, lvl, false, false⟩ (w1 ++ serStr k) =
        ⟨[], RunStop.done ⟨buf ++ w1 ++ serStr k, lvl, false, false⟩⟩ := by
      apply runChars_seq decode (runChars_ws decode hw1 buf lvl hl)
      exact runChars_serStr decode k (buf ++ w1) lvl hl
    have h2 : runChars decode ⟨buf, lvl, false, false⟩ (w1 ++ serStr k ++ w2) =
        ⟨[], RunStop.done ⟨buf ++ w1 ++ serStr k ++ w2, lvl, false, false⟩⟩ :=
      runChars_seq decode h1 (runChars_ws decode hw2 (buf ++ w1 ++ serStr k) lvl hl)
    have hcolon : stepChar decode ⟨buf ++ w1 ++ serStr k ++ w2, lvl, false, false⟩ ':' =
        (⟨buf ++ w1 ++ serStr k ++ w2 ++ [':'], lvl, false, false⟩, StepOut.none) :=
      stepChar_inert_pos decode _ lvl ':' (by decide) (by decide) (by decide) (by decide) hl
    have h3 : runChars decode ⟨buf ++ w1 ++ serStr k ++ w2, lvl, false, false⟩ (':' :: u) =
        ⟨[], RunStop.done
          ⟨buf ++ w1 ++ serStr k ++ w2 ++ [':'] ++ u, lvl, false, false⟩⟩ := by
      rw [runChars_cons_none decode ':' _ hcolon]
      exact ih (buf ++ w1 ++ serStr k ++ w2 ++ [':']) lvl hl
    rw [runChars_seq decode h2 h3]
    simp

/-- Scanning a pretty-printed top-level object text from the
between-objects state: the exact text — interior whitespace included —
is handed to the decoder; one object is yielded on success and the
scanner returns to `initState`; on decode failure the run fails
carrying the exact text. -/
theorem runChars_topObjPP (decode : List Char → Except E J) {ms : JsonObj} {t : List Char}
    (h : PPText (PPKind.val (Json.obj ms)) t) :
    runChars decode initState t =
      match decode t with
      | Except.ok j => ⟨[j], RunStop.done initState⟩
      | Except.error e => ⟨[], RunStop.malformed e t⟩ := by
  cases h with
  | @obj _ u hinner =>
    have hopen : stepChar decode initState '\x7b' =
        (⟨['\x7b'], 1, false, false⟩, StepOut.none) := stepChar_open0 decode []
    have hclose := stepChar_close1 decode (['\x7b'] ++ u)
    have harg : ['\x7b'] ++ u ++ ['\x7d'] = '\x7b' :: (u ++ ['\x7d']) := by simp
    rw [harg] at hclose
    rw [List.cons_append]
    rw [runChars_cons_none decode '\x7b' _ hopen]
    rw [runChars_append_done decode u ['\x7d'] _ _ []
      (runChars_ppText decode hinner ['\x7b'] 1 one_pos)]
    rw [runChars_cons, hclose]
    cases hd : decode ('\x7b' :: (u ++ ['\x7d'])) with
    | ok j => simp [runChars]
    | error e => simp

/-- Scanning a well-formed array body emits, in order, the decoding of
each element's exact text, and ends back in the between-objects state;
the decoder is constrained only on the element texts actually present. -/
theorem runChars_arrayBody (decode : List Char → Except E J) (f : JsonObj → J) :
    ∀ (ps : List (JsonObj × List Char)) (s : List Char), ArrayBody ps s →
    (∀ p ∈ ps, decode p.2 = Except.ok (f p.1)) →
    runChars decode initState s = ⟨ps.map (fun p => f p.1), RunStop.done initState⟩ := by
  intro ps s h
  induction h with
  | nil =>
    intro _
    simp [runChars]
  | sep hb ho hc _ ih =>
    intro hdec
    rw [runChars_cons_none decode _ _ (stepChar_inert0 decode _ hb ho hc), ih hdec]
  | @elem ps' s' t ms hpp _ ih =>
    intro hdec
    have hd : decode t = Except.ok (f ms) := hdec (ms, t) (List.mem_cons_self _ _)
    have h1 : runChars decode initState t = ⟨[f ms], RunStop.done initState⟩ := by
      rw [runChars_topObjPP decode hpp, hd]
    rw [runChars_append_done decode _ _ _ _ [f ms] h1,
      ih (fun p hp => hdec p (List.mem_cons_of_mem _ hp))]
    simp

/-! ### The two copies of the scanning logic agree -/

theorem stepCharA_eq (decode : List Char → Except E J) (st : ScanState) (c : Char) :
    stepCharA decode st c = stepChar decode st c := rfl

theorem finishA_eq (r : RunRes E J) : finishA r = finish r := rfl

theorem runCharsA_eq (decode : List Char → Except E J) (cs : List Char) :
    ∀ st : ScanState, runCharsA decode st cs = runChars decode st cs := by
  induction cs with
  | nil => intro st; rfl
  | cons c cs ih =>
    intro st
    rw [runCharsA, runChars_cons, stepCharA_eq]
    rcases stepChar decode st c with ⟨st', out⟩
    cases out with
    | none => exact ih st'
    | emit j => dsimp only; rw [ih st']
    | fail e s => rfl

theorem findArrayStartA_eq (lines : List (List Char)) :
    findArrayStartA lines = findArrayStart lines := by
  induction lines with
  | nil => rfl
  | cons l rest ih =>
    rw [findArrayStartA, findArrayStart]
    rw [ih]

theorem head?_append_of_some {α : Type} {l l' : List α} {a : α} (h : l.head? = some a) :
    (l ++ l').head? = some a := by
  cases l with
  | nil => simp at h
  | cons b bs => simpa using h

theorem getLast?_append_singleton {α : Type} (l : List α) (a : α) :
    (l ++ [a]).getLast? = some a := List.getLast?_concat l

theorem ne_nil_of_head?_some {α : Type} {l : List α} {a : α} (h : l.head? = some a) :
    l ≠ [] := by
  cases l with
  | nil => simp at h
  | cons b bs => simp

/-! ### Remaining per-character facts (negative and zero levels) -/

/-- An opening brace at negative level: no clear, no append, level rises. -/
theorem stepChar_open_neg (decode : List Char → Except E J) (buf : List Char) (lvl : Int)
    (hl : lvl < 0) :
    stepChar decode ⟨buf, lvl, false, false⟩ '\x7b' =
      (⟨buf, lvl + 1, false, false⟩, StepOut.none) := by
  have h0 : lvl ≠ 0 := by omega
  have h1 : ¬(0 : Int) < lvl + 1 := by omega
  simp [stepChar, stepStructural, appendIf, h0, h1]

/-- A closing brace at nonpositive level: no append, no emission, the
level just drops below its former value (to -1 from level 0). -/
theorem stepChar_close_nonpos (decode : List Char → Except E J) (buf : List Char) (lvl : Int)
    (hl : lvl ≤ 0) :
    stepChar decode ⟨buf, lvl, false, false⟩ '\x7d' =
      (⟨buf, lvl - 1, false, false⟩, StepOut.none) := by
  have h0 : ¬(0 : Int) < lvl := by omega
  have h1 : lvl - 1 ≠ 0 := by omega
  simp [stepChar, stepStructural, appendIf, h0, h1]

/-- Any character other than a brace or backslash at nonpositive level
outside a string is discarded. -/
theorem stepChar_inert_nonpos (decode : List Char → Except E J) (buf : List Char) (lvl : Int)
    (c : Char) (hb : c ≠ '\\') (ho : c ≠ '\x7b') (hc : c ≠ '\x7d') (hl : lvl ≤ 0) :
    stepChar decode ⟨buf, lvl, false, false⟩ c =
      (⟨buf, lvl, false, false⟩, StepOut.none) := by
  have h0 : ¬(0 : Int) < lvl := by omega
  simp [stepChar, stepStructural, appendIf, hb, ho, hc, h0]

/-- The string-interior branch, allowing a quote blocked by the
level-positivity test. -/
theorem stepChar_inString2 (decode : List Char → Except E J) (buf : List Char) (lvl : Int)
    (c : Char) (hb : c ≠ '\\') (hq : ¬(c = '"' ∧ 0 < lvl)) :
    stepChar decode ⟨buf, lvl, true, false⟩ c =
      (⟨appendIf lvl buf c, lvl, true, false⟩, StepOut.none) := by
  simp [stepChar, hb, hq]

theorem shapeInv_mk {buf : List Char} {lvl : Int} {inS esc : Bool} (c : Char)
    (h1 : lvl ≤ 0 → buf = []) (h2 : 0 < lvl → buf.head? = some '\x7b')
    (h3 : inS = true → 0 < lvl) :
    ShapeInv ⟨appendIf lvl buf c, lvl, inS, esc⟩ := by
  refine ⟨?_, ?_, ?_⟩ <;> dsimp only
  · intro hle
    rw [appendIf, if_neg (by omega : ¬(0 : Int) < lvl)]
    exact h1 hle
  · intro hpos
    rw [appendIf, if_pos hpos]
    exact head?_append_of_some (h2 hpos)
  · exact h3

/-- One step preserves the invariant, and any string handed to the
decoder by this step — emitted on success or carried by the failure —
starts with an opening brace and ends with the closing brace. -/
theorem stepChar_shape (decode : List Char → Except E J) (st : ScanState) (c : Char)
    (hinv : ShapeInv st) :
    ShapeInv (stepChar decode st c).1 ∧
    (∀ j, (stepChar decode st c).2 = StepOut.emit j →
      ∃ s, decode s = Except.ok j ∧ s.head? = some '\x7b' ∧ s.getLast? = some '\x7d') ∧
    (∀ e s, (stepChar decode st c).2 = StepOut.fail e s →
      s.head? = some '\x7b' ∧ s.getLast? = some '\x7d') := by
  rcases st with ⟨buf, lvl, inS, esc⟩
  obtain ⟨h1, h2, h3⟩ := hinv
  dsimp only at h1 h2 h3
  cases esc with
  | true =>
    rw [stepChar_escape]
    exact ⟨shapeInv_mk c h1 h2 h3, by intro j h; simp at h, by intro e s h; simp at h⟩
  | false =>
    by_cases hb : c = '\\'
    · subst hb
      rw [stepChar_backslash]
      exact ⟨shapeInv_mk '\\' h1 h2 h3, by intro j h; simp at h, by intro e s h; simp at h⟩
    · by_cases hq : c = '"' ∧ 0 < lvl
      · obtain ⟨rfl, hlv⟩ := hq
        rw [stepChar_quote decode buf lvl inS hlv]
        refine ⟨⟨?_, ?_, ?_⟩, by intro j h; simp at h, by intro e s h; simp at h⟩ <;> dsimp only
        · intro hle; exact absurd hlv (by omega)
        · intro _; exact head?_append_of_some (h2 hlv)
        · intro _; exact hlv
      · cases inS with
        | true =>
          rw [stepChar_inString2 decode buf lvl c hb hq]
          exact ⟨shapeInv_mk c h1 h2 (fun _ => h3 rfl),
            by intro j h; simp at h, by intro e s h; simp at h⟩
        | false =>
          by_cases ho : c = '\x7b'
          · subst ho
            rcases lt_trichotomy lvl 0 with hl | hl | hl
            · rw [stepChar_open_neg decode buf lvl hl]
              refine ⟨⟨?_, ?_, ?_⟩, by intro j h; simp at h, by intro e s h; simp at h⟩ <;> dsimp only
              · intro _; exact h1 (by omega)
              · intro hp; exact absurd hp (by omega)
              · intro hfalse; simp at hfalse
            · subst hl
              rw [stepChar_open0]
              refine ⟨⟨?_, ?_, ?_⟩, by intro j h; simp at h, by intro e s h; simp at h⟩ <;> dsimp only
              · intro hle; exact absurd hle (by omega)
              · intro _; rfl
              · intro hfalse; simp at hfalse
            · rw [stepChar_open_pos decode buf lvl hl]
              refine ⟨⟨?_, ?_, ?_⟩, by intro j h; simp at h, by intro e s h; simp at h⟩ <;> dsimp only
              · intro hle; exact absurd hle (by omega)
              · intro _; exact head?_append_of_some (h2 hl)
              · intro hfalse; simp at hfalse
          · by_cases hc : c = '\x7d'
            · subst hc
              rcases lt_trichotomy lvl 1 with hl | hl | hl
              · have hle : lvl ≤ 0 := by omega
                rw [stepChar_close_nonpos decode buf lvl hle]
                refine ⟨⟨?_, ?_, ?_⟩, by intro j h; simp at h, by intro e s h; simp at h⟩ <;> dsimp only
                · intro _; exact h1 hle
                · intro hp; exact absurd hp (by omega)
                · intro hfalse; simp at hfalse
              · subst hl
                rw [stepChar_close1 decode buf]
                cases hd : decode (buf ++ ['\x7d']) with
                | ok j =>
                  dsimp only
                  refine ⟨⟨?_, ?_, ?_⟩, ?_, by intro e s h; simp at h⟩
                  · intro _; rfl
                  · intro hp; exact absurd hp (by simp [initState])
                  · intro hfalse; simp [initState] at hfalse
                  · intro j' hj'
                    cases hj'
                    exact ⟨buf ++ ['\x7d'], hd,
                      head?_append_of_some (h2 (by omega)),
                      getLast?_append_singleton buf '\x7d'⟩
                | error e =>
                  dsimp only
                  refine ⟨⟨?_, ?_, ?_⟩, by intro j h; simp at h, ?_⟩
                  · intro _; rfl
                  · intro hp; exact absurd hp (by simp [initState])
                  · intro hfalse; simp [initState] at hfalse
                  · intro e' s' h
                    cases h
                    exact ⟨head?_append_of_some (h2 (by omega)),
                      getLast?_append_singleton buf '\x7d'⟩
              · rw [stepChar_close_pos decode buf lvl hl]
                refine ⟨⟨?_, ?_, ?_⟩, by intro j h; simp at h, by intro e s h; simp at h⟩ <;> dsimp only
                · intro hle; exact absurd hle (by omega)
                · intro _; exact head?_append_of_some (h2 (by omega))
                · intro hfalse; simp at hfalse
            · rcases le_or_lt lvl 0 with hle | hpos
              · rw [stepChar_inert_nonpos decode buf lvl c hb ho hc hle]
                refine ⟨⟨?_, ?_, ?_⟩, by intro j h; simp at h, by intro e s h; simp at h⟩ <;> dsimp only
                · intro h'; exact h1 h'
                · intro hp; exact absurd hp (by omega)
                · intro hfalse; simp at hfalse
              · have hq' : c ≠ '"' := fun h => hq ⟨h, hpos⟩
                rw [stepChar_inert_pos decode buf lvl c hb hq' ho hc hpos]
                refine ⟨⟨?_, ?_, ?_⟩, by intro j h; simp at h, by intro e s h; simp at h⟩ <;> dsimp only
                · intro hle; exact absurd hle (by omega)
                · intro _; exact head?_append_of_some (h2 hpos)
                · intro hfalse; simp at hfalse

/-- Along any run from an invariant state, every string handed to the
decoder has the outer shape of a single candidate object. -/
theorem runChars_shape (decode : List Char → Except E J) :
    ∀ (cs : List Char) (st : ScanState), ShapeInv st →
    (∀ j ∈ (runChars decode st cs).emitted, ∃ s, decode s = Except.ok j ∧
      s.head? = some '\x7b' ∧ s.getLast? = some '\x7d') ∧
    (∀ e s, (runChars decode st cs).stop = RunStop.malformed e s →
      s.head? = some '\x7b' ∧ s.getLast? = some '\x7d') := by
  intro cs
  induction cs with
  | nil =>
    intro st _
    constructor
    · intro j hj
      simp [runChars] at hj
    · intro e s h
      rw [runChars] at h
      simp at h
  | cons c cs ih =>
    intro st hinv
    obtain ⟨hinv', hemit, hfail⟩ := stepChar_shape decode st c hinv
    rw [runChars_cons]
    rcases hstep : stepChar decode st c with ⟨st', out⟩
    rw [hstep] at hinv' hemit hfail
    dsimp only at hinv' hemit hfail
    cases out with
    | none => exact ih st' hinv'
    | emit j =>
      dsimp only
      obtain ⟨hrest1, hrest2⟩ := ih st' hinv'
      constructor
      · intro j' hj'
        rcases List.mem_cons.mp hj' with rfl | hmem
        · exact hemit j' rfl
        · exact hrest1 j' hmem
      · exact hrest2
    | fail e s =>
      dsimp only
      constructor
      · intro j hj
        simp at hj
      · intro e' s' h
        cases h
        exact hfail e s rfl

/-! ### What a raised decode failure carries -/

/-- A `fail` step can only arise from the emitter, and it carries exactly
the decoder's error and the decoded-upon text. -/
theorem stepChar_fail_inv (decode : List Char → Except E J) (st : ScanState) (c : Char)
    (st' : ScanState) (e : E) (s : List Char)
    (h : stepChar decode st c = (st', StepOut.fail e s)) : decode s = Except.error e := by
  rcases st with ⟨buf, lvl, inS, esc⟩
  cases esc with
  | true =>
    rw [stepChar_escape] at h
    simp at h
  | false =>
    by_cases hb : c = '\\'
    · subst hb
      rw [stepChar_backslash] at h
      simp at h
    · by_cases hq : c = '"' ∧ 0 < lvl
      · obtain ⟨rfl, hlv⟩ := hq
        rw [stepChar_quote decode buf lvl inS hlv] at h
        simp at h
      · cases inS with
        | true =>
          rw [stepChar_inString2 decode buf lvl c hb hq] at h
          simp at h
        | false =>
          by_cases ho : c = '\x7b'
          · subst ho
            rcases lt_trichotomy lvl 0 with hl | hl | hl
            · rw [stepChar_open_neg decode buf lvl hl] at h
              simp at h
            · subst hl
              rw [stepChar_open0] at h
              simp at h
            · rw [stepChar_open_pos decode buf lvl hl] at h
              simp at h
          · by_cases hc : c = '\x7d'
            · subst hc
              rcases lt_trichotomy lvl 1 with hl | hl | hl
              · rw [stepChar_close_nonpos decode buf lvl (by omega)] at h
                simp at h
              · subst hl
                rw [stepChar_close1 decode buf] at h
                cases hd : decode (buf ++ ['\x7d']) with
                | ok j =>
                  rw [hd] at h
                  simp at h
                | error e' =>
                  rw [hd] at h
                  dsimp only at h
                  have h2 := congrArg Prod.snd h
                  dsimp only at h2
                  cases h2
                  exact hd
              · rw [stepChar_close_pos decode buf lvl hl] at h
                simp at h
            · rcases le_or_lt lvl 0 with hle | hpos
              · rw [stepChar_inert_nonpos decode buf lvl c hb ho hc hle] at h
                simp at h
              · have hq' : c ≠ '"' := fun hcq => hq ⟨hcq, hpos⟩
                rw [stepChar_inert_pos decode buf lvl c hb hq' ho hc hpos] at h
                simp at h

/-- A run that stops with a raised decode error carries the decoder's
own error for exactly the offending text. -/
theorem runChars_malformed_decode (decode : List Char → Except E J) :
    ∀ (cs : List Char) (st : ScanState) (os : List J) (e : E) (s : List Char),
    runChars decode st cs = ⟨os, RunStop.malformed e s⟩ → decode s = Except.error e := by
  intro cs
  induction cs with
  | nil =>
    intro st os e s h
    rw [runChars] at h
    simp at h
  | cons c cs ih =>
    intro st os e s h
    rw [runChars_cons] at h
    rcases hstep : stepChar decode st c with ⟨st', out⟩
    rw [hstep] at h
    cases out with
    | none => exact ih st' os e s h
    | emit j =>
      dsimp only at h
      rcases hr : runChars decode st' cs with ⟨os', stop'⟩
      rw [hr] at h
      cases h
      exact ih st' os' e s hr
    | fail e' s' =>
      dsimp only at h
      cases h
      exact stepChar_fail_inv decode st c st' e s hstep

/-! ### Claim theorems -/

/-- C6: when a completed top-level object's buffered text fails JSON
decoding, the run stops with a `ValueError` carrying both the underlying
decode error and the exact offending substring (`decode s = error e` for
the carried pair); objects emitted before the failure were already
delivered and remain in the output; no further objects are produced no
matter how much input follows; and the emitter resets `buffer` and
`in_string` on both of its exit paths (success and failure alike). -/
theorem c6_malformed_object_error (E J : Type) (decode : List Char → Except E J) :
    (∀ st : ScanState,
      (emitObj decode st).1.buffer = [] ∧ (emitObj decode st).1.inString = false) ∧
    (∀ (cs : List Char) (os : List J) (e : E) (s : List Char),
      runChars decode initState cs = ⟨os, RunStop.malformed e s⟩ →
      decode s = Except.error e ∧
        ∀ cs' : List Char, runChars decode initState (cs ++ cs') =
          ⟨os, RunStop.malformed e s⟩) ∧
    (∀ (a b : List Char) (os : List J) (st1 : ScanState),
      runChars decode initState a = ⟨os, RunStop.done st1⟩ →
      runChars decode initState (a ++ b) =
        ⟨os ++ (runChars decode st1 b).emitted, (runChars decode st1 b).stop⟩) := by
  refine ⟨fun st => ⟨rfl, rfl⟩, ?_, ?_⟩
  · intro cs os e s h
    exact ⟨runChars_malformed_decode decode cs initState os e s h,
      fun cs' => runChars_append_fail decode cs cs' initState os e s h⟩
  · intro a b os st1 h
    exact runChars_append_done decode a b initState st1 os h

/-- Witness for C6 at a concrete input: with an always-failing decoder,
scanning one object `\x7b\x7d` fails carrying the decoder's error and
the exact text, and feeding a second object afterwards produces nothing
further. -/
theorem c6_malformed_object_error_witness :
    eFail ['\x7b', '\x7d'] = Except.error () ∧
    runChars eFail initState (['\x7b', '\x7d'] ++ ['\x7b', '\x7d']) =
      ⟨[], RunStop.malformed () ['\x7b', '\x7d']⟩ := by
  have h := (c6_malformed_object_error Unit (List Char) eFail).2.1 ['\x7b', '\x7d'] []
    () ['\x7b', '\x7d'] (by decide)
  exact ⟨h.1, h.2 ['\x7b', '\x7d']⟩

/-- C7: if the line source ends while the nesting level is nonzero, the
parse still returns normally — the condition surfaces only as the
printed warning diagnostic carrying the final level, never as a raised
error — and the emitted objects are exactly those completed before the
end; moreover truncating the character stream at any point preserves
every object completed before the truncation. -/
theorem c7_truncation_warning (E J : Type) (decode : List Char → Except E J) :
    (∀ (l : List Char) (lines : List (List Char)) (os : List J) (st : ScanState),
      (pyStrip l).head? = some '[' →
      runChars decode initState ((pyStrip l).drop 1 ++ lines.flatten) =
        ⟨os, RunStop.done st⟩ →
      st.braceLevel ≠ 0 →
      parse decode (l :: lines) = ⟨os, ParseOutcome.done (some st.braceLevel)⟩) ∧
    (∀ (a b : List Char) (os : List J) (st1 : ScanState),
      runChars decode initState a = ⟨os, RunStop.done st1⟩ →
      (runChars decode initState (a ++ b)).emitted =
        os ++ (runChars decode st1 b).emitted) := by
  constructor
  · intro l lines os st h hrun hlvl
    have hne : pyStrip l ≠ [] := ne_nil_of_head?_some h
    have hfind : findArrayStart (l :: lines) = some ((pyStrip l).drop 1, lines) := by
      rw [findArrayStart]
      rw [if_neg hne, if_pos h]
    unfold parse
    rw [hfind]
    dsimp only
    rw [hrun]
    simp [finish, hlvl]
  · intro a b os st1 h
    rw [runChars_append_done decode a b initState st1 os h]

/-- Witness for C7 at a concrete input: the lines `[`, `\x7b` truncate
mid-object; the parse returns normally with the warning diagnostic at
level 1; and objects completed before a truncation survive it. -/
theorem c7_truncation_warning_witness :
    parse dId [['['], ['\x7b']] = ⟨[], ParseOutcome.done (some 1)⟩ ∧
    (runChars dId initState (['\x7b', '\x7d'] ++ ['\x7b'])).emitted =
      [['\x7b', '\x7d']] ++ (runChars dId initState ['\x7b']).emitted := by
  constructor
  · exact (c7_truncation_warning Unit (List Char) dId).1 ['['] [['\x7b']] []
      ⟨['\x7b'], 1, false, false⟩ (by decide) (by decide) (by decide)
  · exact (c7_truncation_warning Unit (List Char) dId).2 ['\x7b', '\x7d'] ['\x7b']
      [['\x7b', '\x7d']] initState (by decide)

/-- C8: the synchronous and asynchronous drivers are behaviorally
identical — on every input line sequence they emit the same sequence of
decoded objects and produce the same outcome (array-start error, decode
error, or normal end with the same warning diagnostic). -/
theorem c8_parseAsync_eq_parse (E J : Type) (decode : List Char → Except E J)
    (lines : List (List Char)) :
    parseAsync decode lines = parse decode lines := by
  have hfa : findArrayStartA lines = findArrayStart lines := findArrayStartA_eq lines
  unfold parse parseAsync
  rw [hfa]
  cases hf : findArrayStart lines with
  | none => rfl
  | some pr =>
    rcases pr with ⟨rest0, rest⟩
    dsimp only
    rw [runCharsA_eq decode rest0 initState]
    rcases h0 : runChars decode initState rest0 with ⟨os, stop⟩
    cases stop with
    | done st1 =>
      dsimp only
      rw [runCharsA_eq decode rest.flatten st1, finishA_eq,
        runChars_append_done decode rest0 rest.flatten initState st1 os h0]
    | malformed e s =>
      dsimp only
      rw [runChars_append_fail decode rest0 rest.flatten initState os e s h0]
      rfl

/-- C10: every string the scanner hands to the JSON decoder — whether
decoding succeeds (yielding an object) or fails (the text carried by the
error) — is non-empty, begins with an opening brace and ends with a
closing brace: the emitter always receives a single candidate object. -/
theorem c10_emitter_input_shape (E J : Type) (decode : List Char → Except E J)
    (cs : List Char) (os : List J) (stop : RunStop E)
    (h : runChars decode initState cs = ⟨os, stop⟩) :
    (∀ j ∈ os, ∃ s, decode s = Except.ok j ∧ s ≠ [] ∧
      s.head? = some '\x7b' ∧ s.getLast? = some '\x7d') ∧
    (∀ e s, stop = RunStop.malformed e s → s ≠ [] ∧
      s.head? = some '\x7b' ∧ s.getLast? = some '\x7d') := by
  have hinv : ShapeInv initState :=
    ⟨fun _ => rfl, fun hp => absurd hp (by decide), fun hf => absurd hf (by decide)⟩
  obtain ⟨ha, hb⟩ := runChars_shape decode cs initState hinv
  rw [h] at ha hb
  constructor
  · intro j hj
    obtain ⟨s, hs1, hs2, hs3⟩ := ha j hj
    exact ⟨s, hs1, ne_nil_of_head?_some hs2, hs2, hs3⟩
  · intro e s hstop
    obtain ⟨hs2, hs3⟩ := hb e s hstop
    exact ⟨ne_nil_of_head?_some hs2, hs2, hs3⟩

/-- Witness for C10 at a concrete input: scanning `\x7b\x7d` with the
identity decoder emits exactly that text, which is non-empty, brace
delimited. -/
theorem c10_emitter_input_shape_witness :
    dId ['\x7b', '\x7d'] = Except.ok ['\x7b', '\x7d'] ∧ ['\x7b', '\x7d'] ≠ ([] : List Char) ∧
    (['\x7b', '\x7d'] : List Char).head? = some '\x7b' ∧
    (['\x7b', '\x7d'] : List Char).getLast? = some '\x7d' := by
  obtain ⟨s, hs1, hs2, hs3, hs4⟩ :=
    (c10_emitter_input_shape Unit (List Char) dId ['\x7b', '\x7d'] [['\x7b', '\x7d']]
      (RunStop.done initState) (by decide)).1 ['\x7b', '\x7d'] (by decide)
  have hs : s = ['\x7b', '\x7d'] := by
    simpa [dId] using hs1
  subst hs
  exact ⟨hs1, hs2, hs3, hs4⟩

/-- C2 (amended): every scanner transition from a nonnegative nesting
level keeps the level nonnegative EXCEPT a closing brace scanned outside
a string with no escape pending at level exactly 0, which drives the
level to -1: the source decrements `brace_level` unconditionally. -/
theorem c2_brace_level_step (E J : Type) (decode : List Char → Except E J)
    (st : ScanState) (c : Char) (h : 0 ≤ st.braceLevel) :
    0 ≤ (stepChar decode st c).1.braceLevel ∨
      (c = '\x7d' ∧ st.inString = false ∧ st.escapeNext = false ∧ st.braceLevel = 0 ∧
        (stepChar decode st c).1.braceLevel = -1) := by
  rcases st with ⟨buf, lvl, inS, esc⟩
  dsimp only at h ⊢
  cases esc with
  | true =>
    rw [stepChar_escape]
    exact Or.inl h
  | false =>
    by_cases hb : c = '\\'
    · subst hb
      rw [stepChar_backslash]
      exact Or.inl h
    · by_cases hq : c = '"' ∧ 0 < lvl
      · obtain ⟨rfl, hlv⟩ := hq
        rw [stepChar_quote decode buf lvl inS hlv]
        exact Or.inl h
      · cases inS with
        | true =>
          rw [stepChar_inString2 decode buf lvl c hb hq]
          exact Or.inl h
        | false =>
          by_cases ho : c = '\x7b'
          · subst ho
            rcases lt_or_eq_of_le h with hl | hl
            · rw [stepChar_open_pos decode buf lvl hl]
              left
              dsimp only
              omega
            · subst hl
              rw [stepChar_open0]
              left
              dsimp only
              omega
          · by_cases hc : c = '\x7d'
            · subst hc
              rcases lt_or_eq_of_le h with hl | hl
              · rcases lt_or_eq_of_le (by omega : (1 : Int) ≤ lvl) with hl1 | hl1
                · rw [stepChar_close_pos decode buf lvl hl1]
                  left
                  dsimp only
                  omega
                · subst hl1
                  rw [stepChar_close1 decode buf]
                  cases hd : decode (buf ++ ['\x7d']) with
                  | ok j =>
                    left
                    dsimp only [initState]
                    omega
                  | error e =>
                    left
                    dsimp only [initState]
                    omega
              · subst hl
                rw [stepChar_close_nonpos decode buf 0 le_rfl]
                right
                refine ⟨rfl, rfl, rfl, rfl, ?_⟩
                dsimp only
                omega
            · rcases lt_or_eq_of_le h with hl | hl
              · have hq' : c ≠ '"' := fun hcq => hq ⟨hcq, hl⟩
                rw [stepChar_inert_pos decode buf lvl c hb hq' ho hc hl]
                exact Or.inl h
              · subst hl
                rw [stepChar_inert_nonpos decode buf 0 c hb ho hc le_rfl]
                exact Or.inl h

/-- C2 counterexample: the input lines `[`, then a stray closing brace,
drive `brace_level` to -1 — observable in the end-of-stream warning,
which prints level -1 — refuting that the depth stays ≥ 0 on every
transition. -/
theorem c2_negative_level_cex :
    parse dId [['['], ['\x7d']] = ⟨[], ParseOutcome.done (some (-1))⟩ ∧
    (stepChar dId initState '\x7d').1.braceLevel = -1 := by decide

/-- Witness for the amended C2 at a concrete input. -/
theorem c2_brace_level_step_witness :
    0 ≤ (stepChar dId initState 'x').1.braceLevel ∨
      ('x' = '\x7d' ∧ initState.inString = false ∧ initState.escapeNext = false ∧
        initState.braceLevel = 0 ∧ (stepChar dId initState 'x').1.braceLevel = -1) :=
  c2_brace_level_step Unit (List Char) dId initState 'x' (by decide)

/-- C5: characters scanned in string context never change the nesting
depth (braces included), a character consumed by a pending escape never
changes the depth (so escaped quotes stay inside the string), and the
spec's scenario — lines `[`, `\x7b"s": "a\x7db"\x7d`, `]` — emits
exactly one object, the full text with the brace inside the string value
intact, with no error and no warning. -/
theorem c5_string_braces_scenario :
    (∀ (E J : Type) (decode : List Char → Except E J) (st : ScanState) (c : Char),
      st.inString = true → (stepChar decode st c).1.braceLevel = st.braceLevel) ∧
    (∀ (E J : Type) (decode : List Char → Except E J) (st : ScanState) (c : Char),
      st.escapeNext = true → (stepChar decode st c).1.braceLevel = st.braceLevel) ∧
    parse dId
      [['['], ['\x7b', '"', 's', '"', ':', ' ', '"', 'a', '\x7d', 'b', '"', '\x7d'], [']']] =
      ⟨[['\x7b', '"', 's', '"', ':', ' ', '"', 'a', '\x7d', 'b', '"', '\x7d']],
        ParseOutcome.done none⟩ := by
  refine ⟨?_, ?_, by decide⟩
  · intro E J decode st c hs
    rcases st with ⟨buf, lvl, inS, esc⟩
    dsimp only at hs
    subst hs
    cases esc with
    | true => rw [stepChar_escape]
    | false =>
      by_cases hb : c = '\\'
      · subst hb
        rw [stepChar_backslash]
      · by_cases hq : c = '"' ∧ 0 < lvl
        · obtain ⟨rfl, hlv⟩ := hq
          rw [stepChar_quote decode buf lvl true hlv]
        · rw [stepChar_inString2 decode buf lvl c hb hq]
  · intro E J decode st c hs
    rcases st with ⟨buf, lvl, inS, esc⟩
    dsimp only at hs
    subst hs
    rw [stepChar_escape]

/-- Witness for C5's universally quantified parts at concrete states: a
closing brace inside a string, and a closing brace consumed by a pending
escape, both leave the level at 1. -/
theorem c5_string_braces_scenario_witness :
    (stepChar dId ⟨['\x7b', '"'], 1, true, false⟩ '\x7d').1.braceLevel =
      (⟨['\x7b', '"'], 1, true, false⟩ : ScanState).braceLevel ∧
    (stepChar dId ⟨['\x7b'], 1, false, true⟩ '\x7d').1.braceLevel =
      (⟨['\x7b'], 1, false, true⟩ : ScanState).braceLevel :=
  ⟨c5_string_braces_scenario.1 Unit (List Char) dId ⟨['\x7b', '"'], 1, true, false⟩ '\x7d' rfl,
   c5_string_braces_scenario.2.1 Unit (List Char) dId ⟨['\x7b'], 1, false, true⟩ '\x7d' rfl⟩

/-- C9 (amended): after every transition, escape_pending holds iff the
character just consumed was a backslash that was not itself escaped —
regardless of string context: the scanner sets it for a backslash
outside any string too. -/
theorem c9_escape_pending_iff (E J : Type) (decode : List Char → Except E J)
    (st : ScanState) (c : Char) :
    (stepChar decode st c).1.escapeNext = (!st.escapeNext && (c == '\\')) := by
  rcases st with ⟨buf, lvl, inS, esc⟩
  cases esc with
  | true =>
    rw [stepChar_escape]
    simp
  | false =>
    by_cases hb : c = '\\'
    · subst hb
      rw [stepChar_backslash]
      simp
    · by_cases hq : c = '"' ∧ 0 < lvl
      · obtain ⟨rfl, hlv⟩ := hq
        rw [stepChar_quote decode buf lvl inS hlv]
        simp
      · cases inS with
        | true =>
          rw [stepChar_inString2 decode buf lvl c hb hq]
          simp [hb]
        | false =>
          by_cases ho : c = '\x7b'
          · subst ho
            rcases lt_trichotomy lvl 0 with hl | hl | hl
            · rw [stepChar_open_neg decode buf lvl hl]
              simp
            · subst hl
              rw [stepChar_open0]
              simp
            · rw [stepChar_open_pos decode buf lvl hl]
              simp
          · by_cases hc : c = '\x7d'
            · subst hc
              rcases lt_trichotomy lvl 1 with hl | hl | hl
              · rw [stepChar_close_nonpos decode buf lvl (by omega)]
                simp
              · subst hl
                rw [stepChar_close1 decode buf]
                cases hd : decode (buf ++ ['\x7d']) with
                | ok j => simp [initState]
                | error e => simp [initState]
              · rw [stepChar_close_pos decode buf lvl hl]
                simp
            · rcases le_or_lt lvl 0 with hle | hpos
              · rw [stepChar_inert_nonpos decode buf lvl c hb ho hc hle]
                simp [hb]
              · have hq' : c ≠ '"' := fun hcq => hq ⟨hcq, hpos⟩
                rw [stepChar_inert_pos decode buf lvl c hb hq' ho hc hpos]
                simp [hb]

/-- C9 counterexample: a backslash scanned OUTSIDE any string (level 0,
between objects) sets escape_pending — and it really escapes: with the
lines `[` then backslash, open, open, close, the first opening brace is
consumed by the pending escape, so only the object from the second brace
pair is emitted. -/
theorem c9_escape_outside_string_cex :
    (runChars dId initState ['\\']).stop = RunStop.done ⟨[], 0, false, true⟩ ∧
    parse dId [['['], ['\\', '\x7b', '\x7b', '\x7d']] =
      ⟨[['\x7b', '\x7d']], ParseOutcome.done none⟩ := by decide

/-- Phase 1 exhausts the source exactly when no line's stripped form
begins with an opening bracket. -/
theorem findArrayStart_eq_none_iff (lines : List (List Char)) :
    findArrayStart lines = Option.none ↔
      ∀ l ∈ lines, (pyStrip l).head? ≠ some '[' := by
  induction lines with
  | nil => simp [findArrayStart]
  | cons l rest ih =>
    rw [findArrayStart]
    by_cases h0 : pyStrip l = []
    · rw [if_pos h0]
      simp [h0, ih]
    · rw [if_neg h0]
      by_cases h1 : (pyStrip l).head? = some '['
      · rw [if_pos h1]
        simp [h1]
      · rw [if_neg h1]
        simp [h1, ih]

/-- C3 (amended): the detector skips EVERY line — blank or not — whose
trimmed form does not begin with `[`; the array-start `ValueError` is
raised, before any object is emitted, exactly when NO line of the source
begins (after trimming) with `[`. -/
theorem c3_not_array_iff (E J : Type) (decode : List Char → Except E J)
    (lines : List (List Char)) :
    ((parse decode lines).outcome = ParseOutcome.notArray ↔
      ∀ l ∈ lines, (pyStrip l).head? ≠ some '[') ∧
    ((parse decode lines).outcome = ParseOutcome.notArray →
      (parse decode lines).emitted = []) := by
  unfold parse
  cases hf : findArrayStart lines with
  | none =>
    dsimp only
    rw [findArrayStart_eq_none_iff] at hf
    exact ⟨⟨fun _ => hf, fun _ => rfl⟩, fun _ => rfl⟩
  | some pr =>
    rcases pr with ⟨rest0, rest⟩
    dsimp only
    have hout : (finish (runChars decode initState (rest0 ++ rest.flatten))).outcome ≠
        ParseOutcome.notArray := by
      rcases hr : runChars decode initState (rest0 ++ rest.flatten) with ⟨os, stop⟩
      cases stop <;> simp [finish]
    constructor
    · constructor
      · intro h
        exact absurd h hout
      · intro hall
        have hnone : findArrayStart lines = Option.none :=
          (findArrayStart_eq_none_iff lines).mpr hall
        rw [hf] at hnone
        cases hnone
    · intro h
      exact absurd h hout

/-- C3 counterexample: a non-blank garbage line before the `[` line does
NOT cause the array-start error — it is skipped, the parse succeeds and
still emits an object, refuting "the first non-blank line must begin
with `[`". -/
theorem c3_garbage_line_skipped_cex :
    parse dId [['x'], ['['], ['\x7b', '\x7d'], [']']] =
      ⟨[['\x7b', '\x7d']], ParseOutcome.done none⟩ := by decide

/-- Witness for the amended C3 at a concrete input with no `[` line. -/
theorem c3_not_array_iff_witness :
    (parse dId [['n'], ['o']]).outcome = ParseOutcome.notArray ∧
    (parse dId [['n'], ['o']]).emitted = [] := by
  refine ⟨(c3_not_array_iff Unit (List Char) dId [['n'], ['o']]).1.mpr (by decide), ?_⟩
  exact (c3_not_array_iff Unit (List Char) dId [['n'], ['o']]).2
    ((c3_not_array_iff Unit (List Char) dId [['n'], ['o']]).1.mpr (by decide))

/-- C4 (amended): on finding the array-start line, the detector removes
the leading `[` of the TRIMMED line and feeds the remainder of the
trimmed line — not of the original line — to the scanner, followed by
the remaining lines; the leading and trailing whitespace of that line is
trimmed away. -/
theorem c4_detector_feeds_trimmed_remainder (E J : Type) (decode : List Char → Except E J)
    (l : List Char) (rest : List (List Char)) (h : (pyStrip l).head? = some '[') :
    findArrayStart (l :: rest) = some ((pyStrip l).drop 1, rest) ∧
    parse decode (l :: rest) =
      finish (runChars decode initState ((pyStrip l).drop 1 ++ rest.flatten)) := by
  have hne : pyStrip l ≠ [] := ne_nil_of_head?_some h
  have hfind : findArrayStart (l :: rest) = some ((pyStrip l).drop 1, rest) := by
    rw [findArrayStart]
    rw [if_neg hne, if_pos h]
  refine ⟨hfind, ?_⟩
  unfold parse
  rw [hfind]

/-- C4 counterexample: for the line `[a␣` (bracket, letter, space) the
content after the `[` is the two characters `a␣`, but the detector feeds
only `a` to the scanner: the trailing space — a character of the
original line after the `[` — is lost to `strip()`. -/
theorem c4_trailing_space_lost_cex :
    findArrayStart [['[', 'a', ' ']] = some (['a'], []) ∧
    ['[', 'a', ' '].drop 1 = ['a', ' '] ∧
    (['a'] : List Char) ≠ ['a', ' '] := by decide

/-- Witness for the amended C4 at a concrete input. -/
theorem c4_detector_feeds_trimmed_remainder_witness :
    findArrayStart [['[', '\x7b']] = some ((pyStrip ['[', '\x7b']).drop 1, []) ∧
    parse dId [['[', '\x7b']] =
      finish (runChars dId initState
        ((pyStrip ['[', '\x7b']).drop 1 ++ ([] : List (List Char)).flatten)) :=
  c4_detector_feeds_trimmed_remainder Unit (List Char) dId ['[', '\x7b'] [] (by decide)

/-- C1 (amended): for a well-formed — pretty-printed or compact — JSON
array of objects whose opening `[` line carries nothing else after
trimming, the parser emits, in order, exactly the standard decoding of
each element's text, ends without error and without warning, and the
output is invariant under how the body text is split into lines.
`ArrayBody` pairs each element with its exact pretty-printed text,
whitespace inside the object included (via `PPText`); `hdec` says the
external standard decoder decodes each of those texts to the
corresponding element's value. -/
theorem c1_array_elements_split_invariant (E J : Type) (decode : List Char → Except E J)
    (f : JsonObj → J) (l0 : List Char) (hl0 : pyStrip l0 = ['['])
    (lines : List (List Char)) (ps : List (JsonObj × List Char)) (s : List Char)
    (hbody : ArrayBody ps s) (hsplit : lines.flatten = s)
    (hdec : ∀ p ∈ ps, decode p.2 = Except.ok (f p.1)) :
    parse decode (l0 :: lines) = ⟨ps.map (fun p => f p.1), ParseOutcome.done none⟩ := by
  have hne : pyStrip l0 ≠ [] := by
    rw [hl0]
    simp
  have hhead : (pyStrip l0).head? = some '[' := by
    rw [hl0]
    rfl
  have hfind : findArrayStart (l0 :: lines) = some ((pyStrip l0).drop 1, lines) := by
    rw [findArrayStart]
    rw [if_neg hne, if_pos hhead]
  unfold parse
  rw [hfind, hl0]
  dsimp only
  rw [show List.drop 1 (['['] : List Char) = [] from rfl]
  rw [List.nil_append, hsplit, runChars_arrayBody decode f ps s hbody hdec]
  simp [finish, initState]

/-- Witness for the amended C1 at the spec's own pretty-printed
scenario: the lines `[`, `\x7b"a": 1\x7d,`, `\x7b"b": 2\x7d`, `]` —
note the whitespace after each colon, inside the objects — emit the two
decoded elements in order, with no error and no warning. -/
theorem c1_array_elements_split_invariant_witness :
    parse dTable
      [['['], ['\x7b', '"', 'a', '"', ':', ' ', '1', '\x7d', ','],
        ['\x7b', '"', 'b', '"', ':', ' ', '2', '\x7d'], [']']] =
      ⟨[1, 2], ParseOutcome.done none⟩ := by
  have helem1 : PPText (PPKind.elem (Json.num 1)) [' ', '1'] :=
    @PPText.elem (Json.num 1) (serInt 1) [' '] [] (by decide) (PPText.num 1) (by decide)
  have hmem1 : PPText (PPKind.member ['a'] (Json.num 1)) ['"', 'a', '"', ':', ' ', '1'] :=
    @PPText.member ['a'] (Json.num 1) [' ', '1'] [] [] (by decide) (by decide) helem1
  have hpp1 : PPText (PPKind.val (Json.obj (JsonObj.cons ['a'] (Json.num 1) JsonObj.nil)))
      ['\x7b', '"', 'a', '"', ':', ' ', '1', '\x7d'] :=
    PPText.obj (PPText.objOne hmem1)
  have helem2 : PPText (PPKind.elem (Json.num 2)) [' ', '2'] :=
    @PPText.elem (Json.num 2) (serInt 2) [' '] [] (by decide) (PPText.num 2) (by decide)
  have hmem2 : PPText (PPKind.member ['b'] (Json.num 2)) ['"', 'b', '"', ':', ' ', '2'] :=
    @PPText.member ['b'] (Json.num 2) [' ', '2'] [] [] (by decide) (by decide) helem2
  have hpp2 : PPText (PPKind.val (Json.obj (JsonObj.cons ['b'] (Json.num 2) JsonObj.nil)))
      ['\x7b', '"', 'b', '"', ':', ' ', '2', '\x7d'] :=
    PPText.obj (PPText.objOne hmem2)
  have hb : ArrayBody
      [(JsonObj.cons ['a'] (Json.num 1) JsonObj.nil,
          ['\x7b', '"', 'a', '"', ':', ' ', '1', '\x7d']),
        (JsonObj.cons ['b'] (Json.num 2) JsonObj.nil,
          ['\x7b', '"', 'b', '"', ':', ' ', '2', '\x7d'])]
      (['\x7b', '"', 'a', '"', ':', ' ', '1', '\x7d'] ++
        ',' :: (['\x7b', '"', 'b', '"', ':', ' ', '2', '\x7d'] ++ ']' :: [])) :=
    ArrayBody.elem _ hpp1 (ArrayBody.sep (by decide) (by decide) (by decide)
      (ArrayBody.elem _ hpp2 (ArrayBody.sep (by decide) (by decide) (by decide)
        ArrayBody.nil)))
  exact c1_array_elements_split_invariant Unit Nat dTable fTable ['['] (by decide)
    [['\x7b', '"', 'a', '"', ':', ' ', '1', '\x7d', ','],
      ['\x7b', '"', 'b', '"', ':', ' ', '2', '\x7d'], [']']]
    [(JsonObj.cons ['a'] (Json.num 1) JsonObj.nil,
        ['\x7b', '"', 'a', '"', ':', ' ', '1', '\x7d']),
      (JsonObj.cons ['b'] (Json.num 2) JsonObj.nil,
        ['\x7b', '"', 'b', '"', ':', ' ', '2', '\x7d'])]
    _ hb (by decide) (by intro p hp; fin_cases hp <;> rfl)

/-- C1 counterexample: the same character content
`[\x7b"s": "a b"\x7d]` — a well-formed JSON array of one object — fed as
one line versus split into two lines yields different outputs: the
trailing space of the first split line lies inside the string value and
is trimmed away, so the emitted object text (and hence its standard
decoding) differs. -/
theorem c1_split_dependence_cex :
    ['[', '\x7b', '"', 's', '"', ':', ' ', '"', 'a', ' '] ++ ['b', '"', '\x7d', ']'] =
      ['[', '\x7b', '"', 's', '"', ':', ' ', '"', 'a', ' ', 'b', '"', '\x7d', ']'] ∧
    (parse dId [['[', '\x7b', '"', 's', '"', ':', ' ', '"', 'a', ' ', 'b', '"', '\x7d', ']']]).emitted =
      [['\x7b', '"', 's', '"', ':', ' ', '"', 'a', ' ', 'b', '"', '\x7d']] ∧
    (parse dId [['[', '\x7b', '"', 's', '"', ':', ' ', '"', 'a', ' '],
        ['b', '"', '\x7d', ']']]).emitted =
      [['\x7b', '"', 's', '"', ':', ' ', '"', 'a', 'b', '"', '\x7d']] ∧
    parse dId [['[', '\x7b', '"', 's', '"', ':', ' ', '"', 'a', ' ', 'b', '"', '\x7d', ']']] ≠
      parse dId [['[', '\x7b', '"', 's', '"', ':', ' ', '"', 'a', ' '],
        ['b', '"', '\x7d', ']']] := by decide

end GeminiStream
